import Mathlib

/-!
# Verification of the Telemetry lap-windowing and component-risk core

Shallow embedding of the two core modules of the repository:

* `backend/src/karma_stream.py` — the Component Risk Engine
  (`_normalize`, `_column_stats`, `_component_score`, `compute_stream`);
* `backend/src/feature_engineering.py` — the Lap Window Builder
  (`_prepare_lap_windows`), the Lap Assigner (`assign_laps`), the Signal
  Pivot (`pivot_telemetry_signals`) and the Per-Lap Aggregator
  (`aggregate_per_lap`).

Python floats are modelled as exact rationals (`ℚ`), lap numbers as `ℤ`,
vehicle identifiers as `ℕ` (only their equality and ordering matter),
timestamps as `ℤ` (seconds), and pandas `NaN`/`None` cells as `Option ℚ`.
Pandas dataframes are modelled as lists of typed rows together with an
explicit column-name list where the code inspects `df.columns`.
-/

namespace Telemetry

-- Batteries marks the `ℚ` field operations `irreducible`; re-allow their
-- definitional unfolding so that concrete runs of the embedded pipeline can
-- be checked by `decide`.
attribute [local semireducible] Rat.mul Rat.add Rat.sub Rat.inv

/-! ## Risk Engine data model (`karma_stream.py`) -/

/-- One row of the per-lap feature table consumed by `compute_stream`.
`vals` models the feature cells: `row.get(f)` returns `none` both when the
column is absent from the row and when the stored value is `NaN`. -/
structure KRow where
  vehicle_id : ℕ
  lap : ℤ
  vals : List (String × Option ℚ)
deriving DecidableEq, Repr

/-- The per-lap feature dataframe: its column list (inspected by the
missing-feature validation) and its rows. -/
structure KDF where
  cols : List String
  rows : List KRow
deriving DecidableEq, Repr

/-- `row.get(feature)` — `none` if the feature is absent or null. -/
def rowGet (r : KRow) (f : String) : Option ℚ :=
  match r.vals.lookup f with
  | some v => v
  | none => none

/-- `ComponentSpec` from `karma_stream.py` (the `description` field plays no
role in any computation and is omitted). -/
structure CompSpec where
  name : String
  feature_weights : List (String × ℚ)
deriving DecidableEq, Repr

/-- `COMPONENT_SPECS` — the fixed component configuration of the engine. -/
def COMPONENT_SPECS : List CompSpec :=
  [ ⟨"engine", [("speed_mean", 2/5), ("nmot_mean", 3/5)]⟩,
    ⟨"gearbox", [("gear_mean", 1/2), ("accx_can_std", 1/2)]⟩,
    ⟨"brakes", [("pbrake_f_max", 3/5), ("pbrake_r_max", 2/5)]⟩,
    ⟨"tires", [("speed_mean", 3/10), ("Steering_Angle_std", 7/10)]⟩ ]

/-- The union of all configured component features (Python builds this as a
set; only membership is ever used, so a fixed duplicate-free enumeration is
a faithful model). -/
def requiredCols : List String :=
  ["speed_mean", "nmot_mean", "gear_mean", "accx_can_std",
   "pbrake_f_max", "pbrake_r_max", "Steering_Angle_std"]

/-- Non-null values of one column across the table (`df[col].dropna()`). -/
def columnSeries (df : KDF) (col : String) : List ℚ :=
  df.rows.filterMap (fun r => rowGet r col)

/-- `_column_stats`: per column, `(min, max)` of the non-null values, or
`(0, 0)` when the column is entirely null. -/
def columnStats (df : KDF) (columns : List String) : List (String × (ℚ × ℚ)) :=
  columns.map (fun col =>
    match (columnSeries df col).min?, (columnSeries df col).max? with
    | some mn, some mx => (col, (mn, mx))
    | _, _ => (col, (0, 0)))

/-- `stats.get(feature, (0.0, 0.0))`. -/
def statsGet (stats : List (String × (ℚ × ℚ))) (f : String) : ℚ × ℚ :=
  match stats.lookup f with
  | some p => p
  | none => (0, 0)

/-- `_normalize`: nulls map to 0; degenerate bounds map to 0; otherwise
linear rescaling clamped into `[0, 1]`. -/
def normalize (value : Option ℚ) (min_val max_val : ℚ) : ℚ :=
  match value with
  | none => 0
  | some x =>
    if max_val ≤ min_val then 0
    else max 0 (min 1 ((x - min_val) / (max_val - min_val)))

/-- Numerator accumulated by `_component_score`'s loop
(`weighted_sum += weight * norm_val`). -/
def weightedSum (row : KRow) (stats : List (String × (ℚ × ℚ))) (spec : CompSpec) : ℚ :=
  (spec.feature_weights.map (fun fw =>
    fw.2 * normalize (rowGet row fw.1) (statsGet stats fw.1).1 (statsGet stats fw.1).2)).sum

/-- Denominator accumulated by `_component_score`'s loop
(`total_weight += weight` — unconditionally, also for null features). -/
def totalWeight (spec : CompSpec) : ℚ :=
  (spec.feature_weights.map (fun fw => fw.2)).sum

/-- `_component_score`. -/
def componentScore (row : KRow) (stats : List (String × (ℚ × ℚ))) (spec : CompSpec) : ℚ :=
  if totalWeight spec = 0 then 0 else weightedSum row stats spec / totalWeight spec

/-- One output record of the Risk Engine. -/
structure KRec where
  vehicle_id : ℕ
  lap : ℤ
  component : String
  instant_score : ℚ
  karma_score : ℚ
deriving DecidableEq, Repr

/-- The engine's output dataframe: fixed column list plus records. -/
structure KOut where
  cols : List String
  records : List KRec
deriving DecidableEq, Repr

/-- Column list of every dataframe returned by `compute_stream`. -/
def karmaCols : List String :=
  ["vehicle_id", "lap", "component", "instant_score", "karma_score"]

/-- Errors raised by `compute_stream` (the `ValueError` naming the missing
feature columns). -/
inductive KErr where
  | missingColumns (missing : List String)
deriving DecidableEq, Repr

/-- The `smoothed_scores` dict, keyed by `(vehicle_id, component_name)`. -/
abbrev SMap : Type := List ((ℕ × String) × ℚ)

/-- The `vehicle_start_laps` dict, keyed by `vehicle_id`. -/
abbrev VMap : Type := List (ℕ × ℤ)

def lookupSM : SMap → ℕ × String → Option ℚ
  | [], _ => none
  | (k, x) :: rest, k' => if k = k' then some x else lookupSM rest k'

/-- Python dict assignment `smoothed_scores[key] = v`. -/
def updateSM : SMap → ℕ × String → ℚ → SMap
  | [], k, x => [(k, x)]
  | (k0, x0) :: rest, k, x =>
    if k0 = k then (k, x) :: rest else (k0, x0) :: updateSM rest k x

def lookupVM : VMap → ℕ → Option ℤ
  | [], _ => none
  | (k, x) :: rest, k' => if k = k' then some x else lookupVM rest k'

/-- `if vehicle_id not in vehicle_start_laps: vehicle_start_laps[v] = lap`. -/
def insertIfAbsentVM (m : VMap) (k : ℕ) (x : ℤ) : VMap :=
  match lookupVM m k with
  | some _ => m
  | none => (k, x) :: m

/-- The body of the inner `for spec in COMPONENT_SPECS` loop of
`compute_stream`: compute the instant score, smooth it against the previous
karma (seeded with the instant score itself on first sight of the key), add
the capped, stress-amplified wear, cap at 1, store and emit. -/
def stepSpec (s wr : ℚ) (stats : List (String × (ℚ × ℚ))) (row : KRow) (rel : ℤ)
    (sm : SMap) (spec : CompSpec) : SMap × KRec :=
  let instant := componentScore row stats spec
  let prev := (lookupSM sm (row.vehicle_id, spec.name)).getD instant
  let smoothed := s * prev + (1 - s) * instant
  let wear_accumulation := min (1/2 : ℚ) (wr * (rel : ℚ))
  let stress_multiplier := 1 + instant * (1/2 : ℚ)
  let total_wear := wear_accumulation * stress_multiplier
  let final_karma := min 1 (smoothed + total_wear)
  (updateSM sm (row.vehicle_id, spec.name) final_karma,
   ⟨row.vehicle_id, row.lap, spec.name, instant, final_karma⟩)

/-- Run the inner component loop over a list of specs, threading the
`smoothed_scores` state and collecting the emitted records in order. -/
def runSpecs (s wr : ℚ) (stats : List (String × (ℚ × ℚ))) (row : KRow) (rel : ℤ)
    (sm : SMap) : List CompSpec → SMap × List KRec
  | [] => (sm, [])
  | spec :: rest =>
    let p := stepSpec s wr stats row rel sm spec
    let q := runSpecs s wr stats row rel p.1 rest
    (q.1, p.2 :: q.2)

/-- The body of the outer `for _, row in sorted_df.iterrows()` loop:
register the vehicle's first-seen lap, compute the relative lap, and run the
component loop. -/
def stepRow (s wr : ℚ) (stats : List (String × (ℚ × ℚ))) (st : SMap × VMap)
    (row : KRow) : (SMap × VMap) × List KRec :=
  let vm := insertIfAbsentVM st.2 row.vehicle_id row.lap
  let start := (lookupVM vm row.vehicle_id).getD row.lap
  let rel := row.lap - start + 1
  let p := runSpecs s wr stats row rel st.1 COMPONENT_SPECS
  ((p.1, vm), p.2)

/-- The outer row loop of `compute_stream`. -/
def runRows (s wr : ℚ) (stats : List (String × (ℚ × ℚ))) :
    SMap × VMap → List KRow → List KRec
  | _, [] => []
  | st, row :: rest =>
    let p := stepRow s wr stats st row
    p.2 ++ runRows s wr stats p.1 rest

/-- `df.sort_values(["vehicle_id", "lap"])` — lexicographic row order. -/
def rowLE (a b : KRow) : Prop :=
  a.vehicle_id < b.vehicle_id ∨ (a.vehicle_id = b.vehicle_id ∧ a.lap ≤ b.lap)

instance : DecidableRel rowLE := fun a b => by
  unfold rowLE; exact inferInstance

instance : IsTotal KRow rowLE :=
  ⟨fun a b => by
    unfold rowLE
    rcases lt_trichotomy a.vehicle_id b.vehicle_id with h | h | h
    · exact Or.inl (Or.inl h)
    · rcases le_total a.lap b.lap with h2 | h2
      · exact Or.inl (Or.inr ⟨h, h2⟩)
      · exact Or.inr (Or.inr ⟨h.symm, h2⟩)
    · exact Or.inr (Or.inl h)⟩

instance : IsTrans KRow rowLE :=
  ⟨fun a b c hab hbc => by
    unfold rowLE at *
    rcases hab with h1 | ⟨e1, l1⟩
    · rcases hbc with h2 | ⟨e2, _⟩
      · exact Or.inl (h1.trans h2)
      · exact Or.inl (e2 ▸ h1)
    · rcases hbc with h2 | ⟨e2, l2⟩
      · exact Or.inl (e1 ▸ h2)
      · exact Or.inr ⟨e1.trans e2, l1.trans l2⟩⟩

/-- `missing = [col for col in required_cols if col not in df.columns]`. -/
def missingFeatures (df : KDF) : List String :=
  requiredCols.filter (fun c => !(df.cols.contains c))

/-- `compute_stream`: empty input short-circuits to an empty result frame;
otherwise the missing-feature validation runs, then global column stats are
taken and the per-row loop is folded over the rows sorted by
`(vehicle_id, lap)`. -/
def computeStream (df : KDF) (s wr : ℚ) : Except KErr KOut :=
  if df.rows = [] then .ok ⟨karmaCols, []⟩
  else if missingFeatures df = [] then
    .ok ⟨karmaCols,
      runRows s wr (columnStats df requiredCols) ([], [])
        (List.insertionSort rowLE df.rows)⟩
  else .error (.missingColumns (missingFeatures df))

/-- Modelled from the spec (section 4.6, step 2): the instant score as the
spec describes it — the weighted average *restricted to weights whose
features are non-null for the row*, and 0 when no configured feature is
non-null. This definition deliberately follows the spec's words, to be
compared against `componentScore`, which is translated from the source. -/
def instantSpecScore (row : KRow) (stats : List (String × (ℚ × ℚ))) (spec : CompSpec) : ℚ :=
  let present := spec.feature_weights.filter (fun fw => (rowGet row fw.1).isSome)
  let num := (present.map (fun fw =>
    fw.2 * normalize (rowGet row fw.1) (statsGet stats fw.1).1 (statsGet stats fw.1).2)).sum
  let den := (present.map (fun fw => fw.2)).sum
  if den = 0 then 0 else num / den

/-! ## Lap Window Builder (`_prepare_lap_windows`) -/

/-- One lap-boundary event row (after `_normalize_lap_bounds`, so the
columns are `vehicle_id`, `lap_number`, `timestamp`). -/
structure Ev where
  vehicle_id : ℕ
  lap_number : ℤ
  timestamp : ℤ
deriving DecidableEq, Repr

/-- One lap window produced by the builder. -/
structure Window where
  vehicle_id : ℕ
  lap_number : ℤ
  lap_start_time : ℤ
  lap_end_time : ℤ
  lap_duration_s : ℤ
deriving DecidableEq, Repr

/-- `sort_values(["vehicle_id", "lap_number", "timestamp"])` order. -/
def evLE (a b : Ev) : Prop :=
  a.vehicle_id < b.vehicle_id ∨
    (a.vehicle_id = b.vehicle_id ∧
      (a.lap_number < b.lap_number ∨
        (a.lap_number = b.lap_number ∧ a.timestamp ≤ b.timestamp)))

instance : DecidableRel evLE := fun a b => by
  unfold evLE; exact inferInstance

instance : IsTotal Ev evLE :=
  ⟨fun a b => by
    unfold evLE
    rcases lt_trichotomy a.vehicle_id b.vehicle_id with h | h | h
    · exact Or.inl (Or.inl h)
    · rcases lt_trichotomy a.lap_number b.lap_number with h2 | h2 | h2
      · exact Or.inl (Or.inr ⟨h, Or.inl h2⟩)
      · rcases le_total a.timestamp b.timestamp with h3 | h3
        · exact Or.inl (Or.inr ⟨h, Or.inr ⟨h2, h3⟩⟩)
        · exact Or.inr (Or.inr ⟨h.symm, Or.inr ⟨h2.symm, h3⟩⟩)
      · exact Or.inr (Or.inr ⟨h.symm, Or.inl h2⟩)
    · exact Or.inr (Or.inl h)⟩

instance : IsTrans Ev evLE :=
  ⟨fun a b c hab hbc => by
    unfold evLE at *
    rcases hab with h1 | ⟨e1, h1⟩
    · rcases hbc with h2 | ⟨e2, _⟩
      · exact Or.inl (h1.trans h2)
      · exact Or.inl (e2 ▸ h1)
    · rcases hbc with h2 | ⟨e2, h2⟩
      · exact Or.inl (e1 ▸ h2)
      · refine Or.inr ⟨e1.trans e2, ?_⟩
        rcases h1 with h1 | ⟨f1, t1⟩
        · rcases h2 with h2 | ⟨f2, _⟩
          · exact Or.inl (h1.trans h2)
          · exact Or.inl (f2 ▸ h1)
        · rcases h2 with h2 | ⟨f2, t2⟩
          · exact Or.inl (f1 ▸ h2)
          · exact Or.inr ⟨f1.trans f2, t1.trans t2⟩⟩

/-- The `(vehicle_id, lap_number)` key of an event. -/
def evKey (e : Ev) : ℕ × ℤ := (e.vehicle_id, e.lap_number)

/-- `drop_duplicates(subset=key, keep="first")`: keep the first occurrence
of each key, preserving row order. -/
def dedupFirstAux (seen : List (ℕ × ℤ)) : List Ev → List Ev
  | [] => []
  | e :: rest =>
    if evKey e ∈ seen then dedupFirstAux seen rest
    else e :: dedupFirstAux (evKey e :: seen) rest

def dedupFirst (l : List Ev) : List Ev := dedupFirstAux [] l

/-- `drop_duplicates(subset=key, keep="last")`: keep the last occurrence of
each key, preserving row order. -/
def dedupLast (l : List Ev) : List Ev := (dedupFirst l.reverse).reverse

/-- `sort_values(["vehicle_id", "lap_number"])` order on windows. -/
def winLE (a b : Window) : Prop :=
  a.vehicle_id < b.vehicle_id ∨
    (a.vehicle_id = b.vehicle_id ∧ a.lap_number ≤ b.lap_number)

instance : DecidableRel winLE := fun a b => by
  unfold winLE; exact inferInstance

instance : IsTotal Window winLE :=
  ⟨fun a b => by
    unfold winLE
    rcases lt_trichotomy a.vehicle_id b.vehicle_id with h | h | h
    · exact Or.inl (Or.inl h)
    · rcases le_total a.lap_number b.lap_number with h2 | h2
      · exact Or.inl (Or.inr ⟨h, h2⟩)
      · exact Or.inr (Or.inr ⟨h.symm, h2⟩)
    · exact Or.inr (Or.inl h)⟩

instance : IsTrans Window winLE :=
  ⟨fun a b c hab hbc => by
    unfold winLE at *
    rcases hab with h1 | ⟨e1, l1⟩
    · rcases hbc with h2 | ⟨e2, _⟩
      · exact Or.inl (h1.trans h2)
      · exact Or.inl (e2 ▸ h1)
    · rcases hbc with h2 | ⟨e2, l2⟩
      · exact Or.inl (e1 ▸ h2)
      · exact Or.inr ⟨e1.trans e2, l1.trans l2⟩⟩

/-- `_prepare_lap_windows` (after schema normalization and the column
checks): dedup the sorted start table keeping the earliest event per
`(vehicle_id, lap_number)`, dedup the sorted end table keeping the latest,
inner-join one-to-one on the key, sort by the key, and derive the duration.
The inner join of two key-unique tables is the order-preserving lookup of
each start key in the end table. -/
def prepareLapWindows (lap_start lap_end : List Ev) : List Window :=
  let s := dedupFirst (List.insertionSort evLE lap_start)
  let e := dedupLast (List.insertionSort evLE lap_end)
  let joined := s.filterMap (fun a =>
    (e.find? (fun b => evKey b = evKey a)).map (fun b =>
      { vehicle_id := a.vehicle_id
        lap_number := a.lap_number
        lap_start_time := a.timestamp
        lap_end_time := b.timestamp
        lap_duration_s := b.timestamp - a.timestamp }))
  List.insertionSort winLE joined

/-! ## Lap Assigner (`assign_laps`) -/

/-- One raw telemetry sample row (only the columns `assign_laps` reads;
payload signal columns are irrelevant to the assignment itself). -/
structure Sample where
  vehicle_id : ℕ
  meta_time : ℤ
deriving DecidableEq, Repr

/-- `lap_windows.sort_values(["lap_start_time", vehicle_col])` order. -/
def winStartLE (a b : Window) : Prop :=
  a.lap_start_time < b.lap_start_time ∨
    (a.lap_start_time = b.lap_start_time ∧ a.vehicle_id ≤ b.vehicle_id)

instance : DecidableRel winStartLE := fun a b => by
  unfold winStartLE; exact inferInstance

instance : IsTotal Window winStartLE :=
  ⟨fun a b => by
    unfold winStartLE
    rcases lt_trichotomy a.lap_start_time b.lap_start_time with h | h | h
    · exact Or.inl (Or.inl h)
    · rcases le_total a.vehicle_id b.vehicle_id with h2 | h2
      · exact Or.inl (Or.inr ⟨h, h2⟩)
      · exact Or.inr (Or.inr ⟨h.symm, h2⟩)
    · exact Or.inr (Or.inl h)⟩

instance : IsTrans Window winStartLE :=
  ⟨fun a b c hab hbc => by
    unfold winStartLE at *
    rcases hab with h1 | ⟨e1, l1⟩
    · rcases hbc with h2 | ⟨e2, _⟩
      · exact Or.inl (h1.trans h2)
      · exact Or.inl (e2 ▸ h1)
    · rcases hbc with h2 | ⟨e2, l2⟩
      · exact Or.inl (e1 ▸ h2)
      · exact Or.inr ⟨e1.trans e2, l1.trans l2⟩⟩

/-- `telemetry.sort_values([time_col, vehicle_col])` order. -/
def sampleLE (a b : Sample) : Prop :=
  a.meta_time < b.meta_time ∨
    (a.meta_time = b.meta_time ∧ a.vehicle_id ≤ b.vehicle_id)

instance : DecidableRel sampleLE := fun a b => by
  unfold sampleLE; exact inferInstance

instance : IsTotal Sample sampleLE :=
  ⟨fun a b => by
    unfold sampleLE
    rcases lt_trichotomy a.meta_time b.meta_time with h | h | h
    · exact Or.inl (Or.inl h)
    · rcases le_total a.vehicle_id b.vehicle_id with h2 | h2
      · exact Or.inl (Or.inr ⟨h, h2⟩)
      · exact Or.inr (Or.inr ⟨h.symm, h2⟩)
    · exact Or.inr (Or.inl h)⟩

instance : IsTrans Sample sampleLE :=
  ⟨fun a b c hab hbc => by
    unfold sampleLE at *
    rcases hab with h1 | ⟨e1, l1⟩
    · rcases hbc with h2 | ⟨e2, _⟩
      · exact Or.inl (h1.trans h2)
      · exact Or.inl (e2 ▸ h1)
    · rcases hbc with h2 | ⟨e2, l2⟩
      · exact Or.inl (e1 ▸ h2)
      · exact Or.inr ⟨e1.trans e2, l1.trans l2⟩⟩

/-- The `merge_asof(..., by=vehicle, direction="backward",
allow_exact_matches=True)` match for one sample: the last window, in the
start-time-sorted window table, of the same vehicle whose `lap_start_time`
is `≤` the sample's timestamp. -/
def asofMatch (ws : List Window) (v : ℕ) (t : ℤ) : Option Window :=
  ((List.insertionSort winStartLE ws).filter
    (fun w => w.vehicle_id = v ∧ w.lap_start_time ≤ t)).getLast?

/-- `assign_laps`: sort the telemetry, backward-as-of-match each sample to a
window of its vehicle, then keep only samples with
`timestamp ≤ lap_end_time` of the matched window (a missing match — NaN
columns in pandas — fails that comparison and is dropped too). -/
def assignLaps (telemetry : List Sample) (lap_windows : List Window) :
    List (Sample × Window) :=
  (List.insertionSort sampleLE telemetry).filterMap (fun smp =>
    match asofMatch lap_windows smp.vehicle_id smp.meta_time with
    | some w => if smp.meta_time ≤ w.lap_end_time then some (smp, w) else none
    | none => none)

/-! ## Signal Pivot (`pivot_telemetry_signals`) -/

/-- A raw dataframe cell: null (`NaN`/`None`), a number, or a string. -/
inductive Cell where
  | null
  | num (q : ℚ)
  | str (s : String)
deriving DecidableEq, Repr

/-- A raw pandas dataframe as the pivot sees it: column names (duplicates
allowed, as pandas allows duplicate column labels) and rows of cells
positionally aligned with the columns. -/
structure PDF where
  cols : List String
  rows : List (List Cell)
deriving DecidableEq, Repr

/-- `columns.duplicated()`: `true` at a position whose label already
occurred earlier. -/
def dupMaskAux (seen : List String) : List String → List Bool
  | [] => []
  | c :: cs => (c ∈ seen) :: dupMaskAux (c :: seen) cs

/-- Drop the entries of `xs` at the positions the mask marks as duplicated
(`df.loc[:, ~df.columns.duplicated()]` applied to one axis-aligned list). -/
def dropMasked {α : Type} (mask : List Bool) (xs : List α) : List α :=
  ((mask.zip xs).filter (fun p => !p.1)).map (fun p => p.2)

/-- `df.loc[:, ~df.columns.duplicated()]`: remove duplicate-labelled
columns, keeping the first occurrence of each label. -/
def dedupColumns (df : PDF) : PDF :=
  ⟨dropMasked (dupMaskAux [] df.cols) df.cols,
   df.rows.map (dropMasked (dupMaskAux [] df.cols))⟩

/-- The long-format columns `pivot_telemetry_signals` requires
(`DEFAULT_VEHICLE_COL`, `"lap"`, `DEFAULT_TIMESTAMP_COL` and the default
signal name/value columns). -/
def pivotRequired : List String :=
  ["vehicle_id", "lap", "meta_time", "telemetry_name", "telemetry_value"]

def pivotMetaNames : List String :=
  ["lap_start_time", "lap_end_time", "lap_duration_s"]

/-- Cell of a row under a column name (first matching column; `Cell.null`
when the column is absent). -/
def cellAt (cols : List String) (row : List Cell) (name : String) : Cell :=
  match (cols.zip row).find? (fun p => p.1 = name) with
  | some p => p.2
  | none => .null

/-- Mean of the numeric values among a list of cells (the `aggfunc="mean"`
of `pivot_table`, which ignores nulls); null when there is none. -/
def cellMean (cs : List Cell) : Cell :=
  let qs := cs.filterMap (fun c => match c with | .num q => some q | _ => none)
  if qs.isEmpty then .null else .num (qs.sum / (qs.length : ℚ))

/-- The wide reshaping branch of `pivot_telemetry_signals`: group by the
`(vehicle_id, lap, meta_time)` cell triple, spread `telemetry_name` into
one column per signal holding the mean of the `telemetry_value`
observations of the group, and reattach the first-seen lap-metadata cells
of each group.  Two inessential presentation aspects of `pivot_table` are
abstracted: the output row and signal-column orders are first-appearance
orders rather than pandas' sorted orders, and only string-valued signal
names become columns (in this pipeline `telemetry_name` is always a
string).  No claim in this development depends on this branch. -/
def pivotLong (d : PDF) : PDF :=
  let key := fun (row : List Cell) =>
    [cellAt d.cols row "vehicle_id", cellAt d.cols row "lap", cellAt d.cols row "meta_time"]
  let keys := (d.rows.map key).dedup
  let signals := (d.rows.filterMap (fun row =>
    match cellAt d.cols row "telemetry_name" with
    | .str s => some s
    | _ => none)).dedup
  let metaCols := pivotMetaNames.filter (fun c => c ∈ d.cols)
  let outCols := ["vehicle_id", "lap", "meta_time"] ++ signals ++ metaCols
  let outRows := keys.map (fun k =>
    let group := d.rows.filter (fun row => key row = k)
    let sigCells := signals.map (fun s =>
      cellMean ((group.filter (fun row => cellAt d.cols row "telemetry_name" = .str s)).map
        (fun row => cellAt d.cols row "telemetry_value")))
    let metaCells := metaCols.map (fun c =>
      match group with
      | [] => Cell.null
      | row :: _ => cellAt d.cols row c)
    k ++ sigCells ++ metaCells)
  ⟨outCols, outRows⟩

/-- `pivot_telemetry_signals`: first drop duplicate-labelled columns; if the
long-format columns are not all present, pass the (deduplicated) table
through; otherwise pivot. -/
def pivotTelemetrySignals (df : PDF) : PDF :=
  let d := dedupColumns df
  if pivotRequired.all (fun c => d.cols.contains c) then pivotLong d else d

/-! ## Per-Lap Aggregator (`aggregate_per_lap`) -/

/-- One lap-tagged wide-format telemetry row: the key columns the
aggregator groups by, plus named signal cells. -/
structure WRow where
  vehicle_id : ℕ
  lap : ℤ
  vals : List (String × Option ℚ)
deriving DecidableEq, Repr

structure WDF where
  cols : List String
  rows : List WRow
deriving DecidableEq, Repr

def wrowGet (r : WRow) (c : String) : Option ℚ :=
  match r.vals.lookup c with
  | some v => v
  | none => none

/-- `TELEMETRY_AGGREGATIONS` from `config.py`: configured signal columns
with their statistics. -/
def TELEMETRY_AGGREGATIONS : List (String × List String) :=
  [ ("speed", ["mean", "max"]),
    ("Steering_Angle", ["mean", "std"]),
    ("ath", ["mean", "max", "std"]),
    ("pbrake_f", ["mean", "max"]),
    ("pbrake_r", ["mean", "max"]),
    ("nmot", ["mean", "max", "std"]),
    ("accx_can", ["mean", "max", "min", "std"]),
    ("accy_can", ["mean", "max", "min", "std"]),
    ("gear", ["mean", "max"]) ]

/-- One statistic over the non-null values of a column within a group.
`"std"` is represented by the sample variance (`ddof=1`, pandas' default):
`ℚ` has no square root, and no claim refers to the magnitude of a `std`
column, only to its presence; the null/non-null pattern (fewer than two
non-null values give `NaN`) is preserved exactly. -/
def statOf (stat : String) (xs : List ℚ) : Option ℚ :=
  if stat = "mean" then
    if xs.isEmpty then none else some (xs.sum / (xs.length : ℚ))
  else if stat = "max" then xs.max?
  else if stat = "min" then xs.min?
  else if stat = "std" then
    if xs.length < 2 then none
    else
      let m := xs.sum / (xs.length : ℚ)
      some (((xs.map (fun x => (x - m) ^ 2)).sum) / ((xs.length : ℚ) - 1))
  else none

/-- One output row of the aggregator. -/
structure ARow where
  vehicle_id : ℕ
  lap : ℤ
  stats : List (String × Option ℚ)
  samples_per_lap : ℕ
  meta : List (String × Option ℚ)
deriving DecidableEq, Repr

inductive AErr where
  | missingColumns (missing : List String)
  | noConfiguredSignals
deriving DecidableEq, Repr

/-- `groupby([vehicle, lap])` key order (pandas sorts group keys). -/
def pairLE (a b : ℕ × ℤ) : Prop :=
  a.1 < b.1 ∨ (a.1 = b.1 ∧ a.2 ≤ b.2)

instance : DecidableRel pairLE := fun a b => by
  unfold pairLE; exact inferInstance

instance : IsTotal (ℕ × ℤ) pairLE :=
  ⟨fun a b => by
    unfold pairLE
    rcases lt_trichotomy a.1 b.1 with h | h | h
    · exact Or.inl (Or.inl h)
    · rcases le_total a.2 b.2 with h2 | h2
      · exact Or.inl (Or.inr ⟨h, h2⟩)
      · exact Or.inr (Or.inr ⟨h.symm, h2⟩)
    · exact Or.inr (Or.inl h)⟩

instance : IsTrans (ℕ × ℤ) pairLE :=
  ⟨fun a b c hab hbc => by
    unfold pairLE at *
    rcases hab with h1 | ⟨e1, l1⟩
    · rcases hbc with h2 | ⟨e2, _⟩
      · exact Or.inl (h1.trans h2)
      · exact Or.inl (e2 ▸ h1)
    · rcases hbc with h2 | ⟨e2, l2⟩
      · exact Or.inl (e1 ▸ h2)
      · exact Or.inr ⟨e1.trans e2, l1.trans l2⟩⟩

def wkey (r : WRow) : ℕ × ℤ := (r.vehicle_id, r.lap)

/-- `aggregate_per_lap`: check the group-key columns, build the aggregation
dictionary from the configured signals actually present (error when none
is), then emit one row per `(vehicle_id, lap)` group — in sorted key order,
as pandas `groupby` sorts — carrying the `{signal}_{stat}` statistics, the
exact per-group row count `samples_per_lap`, and the first non-null
lap-metadata cells of the group (`groupby.first()` skips nulls). -/
def aggregatePerLap (df : WDF) : Except AErr (List ARow) :=
  let ensureMissing := (["lap", "vehicle_id"].filter (fun c => !(df.cols.contains c)))
  if ensureMissing = [] then
    let aggDict := TELEMETRY_AGGREGATIONS.filter (fun sp => df.cols.contains sp.1)
    if aggDict = [] then .error .noConfiguredSignals
    else
      let keys := List.insertionSort pairLE (df.rows.map wkey).dedup
      let availableMeta := pivotMetaNames.filter (fun c => df.cols.contains c)
      .ok (keys.map (fun k =>
        let group := df.rows.filter (fun r => wkey r = k)
        { vehicle_id := k.1
          lap := k.2
          stats := aggDict.flatMap (fun sp =>
            sp.2.map (fun st =>
              (sp.1 ++ "_" ++ st, statOf st (group.filterMap (fun r => wrowGet r sp.1)))))
          samples_per_lap := group.length
          meta := availableMeta.map (fun c =>
            (c, (group.filterMap (fun r => wrowGet r c)).head?)) }))
  else .error (.missingColumns ensureMissing)

/-! ## Helper lemmas -/

instance {ε α : Type} [DecidableEq ε] [DecidableEq α] :
    DecidableEq (Except ε α) := fun x y =>
  match x, y with
  | .ok a, .ok b =>
    if h : a = b then isTrue (congrArg Except.ok h)
    else isFalse (fun c => h (Except.ok.inj c))
  | .error a, .error b =>
    if h : a = b then isTrue (congrArg Except.error h)
    else isFalse (fun c => h (Except.error.inj c))
  | .ok _, .error _ => isFalse (fun c => Except.noConfusion c)
  | .error _, .ok _ => isFalse (fun c => Except.noConfusion c)

/-- Summing a weighted list equals summing its non-null-weighted sublist
when the dropped elements contribute `0`. -/
lemma sum_eq_sum_filter {α : Type} (p : α → Bool) (f : α → ℚ)
    (l : List α) (h0 : ∀ a ∈ l, p a = false → f a = 0) :
    (l.map f).sum = ((l.filter p).map f).sum := by
  induction l with
  | nil => rfl
  | cons a rest ih =>
    have hrest : ∀ b ∈ rest, p b = false → f b = 0 :=
      fun b hb => h0 b (List.mem_cons_of_mem a hb)
    by_cases hp : p a
    · simp [List.filter_cons, hp, ih hrest]
    · have hpa : p a = false := by simpa using hp
      simp [List.filter_cons, hpa, h0 a (List.mem_cons_self a rest) hpa, ih hrest]

/-- The configured weights whose features are non-null for the row. -/
def presentWeights (row : KRow) (spec : CompSpec) : List (String × ℚ) :=
  spec.feature_weights.filter (fun fw => (rowGet row fw.1).isSome)

/-! ## Claim theorems -/

/-- **C10.** On the empty input dataframe — whatever its column list, in
particular one missing every configured component feature — `compute_stream`
returns the empty output frame with exactly the columns
`vehicle_id, lap, component, instant_score, karma_score` and raises no
error: the missing-feature validation is bypassed on empty input. -/
theorem computeStream_empty_input (cols : List String) (s wr : ℚ) :
    computeStream ⟨cols, []⟩ s wr = .ok ⟨karmaCols, []⟩ := by
  simp [computeStream]

/-- **C8, counterexample.** The claim quantifies over *every* input table,
but on the empty table — here one with no columns at all, so every
configured feature is absent — the engine returns an empty result instead
of raising the missing-feature validation error. -/
theorem computeStream_missing_features_empty_cex :
    ("speed_mean" ∈ requiredCols ∧ "speed_mean" ∉ ([] : List String)) ∧
      computeStream ⟨[], []⟩ (3/5) (1/500) = .ok ⟨karmaCols, []⟩ := by
  constructor
  · constructor
    · simp [requiredCols]
    · simp
  · simp [computeStream]

/-- **C8, amended.** For every *non-empty* input table: if any configured
component feature is absent from the columns, `compute_stream` fails with
the validation error naming exactly the absent configured features (fail
fast, no degraded mode); if none is absent, no such error is raised. -/
theorem computeStream_missing_features (df : KDF) (s wr : ℚ)
    (hne : df.rows ≠ []) :
    ((∃ f ∈ requiredCols, f ∉ df.cols) →
      ∃ missing, computeStream df s wr = .error (.missingColumns missing) ∧
        missing ≠ [] ∧ ∀ f, f ∈ missing ↔ (f ∈ requiredCols ∧ f ∉ df.cols)) ∧
    ((∀ f ∈ requiredCols, f ∈ df.cols) →
      ∃ out, computeStream df s wr = .ok out) := by
  have hmem_iff : ∀ f, f ∈ missingFeatures df ↔ (f ∈ requiredCols ∧ f ∉ df.cols) := by
    intro f
    simp [missingFeatures, List.mem_filter]
  constructor
  · rintro ⟨f, hf, hfn⟩
    have hmem : f ∈ missingFeatures df := (hmem_iff f).mpr ⟨hf, hfn⟩
    have hnil : missingFeatures df ≠ [] := List.ne_nil_of_mem hmem
    refine ⟨missingFeatures df, ?_, hnil, hmem_iff⟩
    rw [computeStream, if_neg hne, if_neg hnil]
  · intro hall
    have hfil : missingFeatures df = [] := by
      rw [missingFeatures, List.filter_eq_nil_iff]
      intro a ha
      simp [hall a ha]
    exact ⟨_, by rw [computeStream, if_neg hne, if_pos hfil]⟩

/-- **C1, counterexample.** Input table over all configured features with
two rows for vehicle 1; on lap 2 the feature `speed_mean` is 100 (the
global maximum) and `nmot_mean` is null.  The claim's restricted weighted
average for the engine component is `0.4·1/0.4 = 1`, but the engine's
emitted instant score is `0.4·1/(0.4+0.6) = 2/5`: null features keep their
weight in the denominator. -/
theorem componentScore_restricted_cex :
    (Except.map (fun o => (o.records.map (fun r => (r.component, r.lap, r.instant_score))).get? 4)
      (computeStream
        ⟨requiredCols,
          [⟨1, 1, [("speed_mean", some 0), ("nmot_mean", some 0)]⟩,
           ⟨1, 2, [("speed_mean", some 100), ("nmot_mean", none)]⟩]⟩ (3/5) (1/500))
      = .ok (some ("engine", 2, 2/5))) ∧
    instantSpecScore ⟨1, 2, [("speed_mean", some 100), ("nmot_mean", none)]⟩
      (columnStats
        ⟨requiredCols,
          [⟨1, 1, [("speed_mean", some 0), ("nmot_mean", some 0)]⟩,
           ⟨1, 2, [("speed_mean", some 100), ("nmot_mean", none)]⟩]⟩ requiredCols)
      ⟨"engine", [("speed_mean", 2/5), ("nmot_mean", 3/5)]⟩ = 1 ∧
    (2/5 : ℚ) ≠ 1 := by
  refine ⟨?_, ?_, ?_⟩ <;> decide

/-- **C1, amended.** The instant score is the weighted average of the
globally-normalized features over *all* of the component's configured
weights: a null-valued feature contributes `0` to the numerator but its
weight still counts in the denominator, so the numerator may equivalently
be restricted to the non-null features while the denominator may not.  If
no configured feature is non-null for the row the instant score is `0`
(and it is also `0` when the total configured weight is `0`). -/
theorem componentScore_null_weights (row : KRow)
    (stats : List (String × (ℚ × ℚ))) (spec : CompSpec) :
    componentScore row stats spec
      = (if totalWeight spec = 0 then 0
         else ((presentWeights row spec).map (fun fw =>
            fw.2 * normalize (rowGet row fw.1) (statsGet stats fw.1).1
              (statsGet stats fw.1).2)).sum / totalWeight spec) ∧
    (presentWeights row spec = [] → componentScore row stats spec = 0) := by
  have hsum : weightedSum row stats spec
      = ((presentWeights row spec).map (fun fw =>
          fw.2 * normalize (rowGet row fw.1) (statsGet stats fw.1).1
            (statsGet stats fw.1).2)).sum := by
    unfold weightedSum presentWeights
    apply sum_eq_sum_filter
    intro fw _ hnone
    have : rowGet row fw.1 = none := by
      simpa [Option.isSome_iff_exists] using hnone
    simp [this, normalize]
  constructor
  · unfold componentScore
    rw [hsum]
  · intro hnil
    unfold componentScore
    rw [hsum, hnil]
    simp

/-- **C1, amended, witness.** The amended characterization evaluated at the
counterexample row: the engine instant score there is `2/5`. -/
theorem componentScore_null_weights_witness :
    componentScore ⟨1, 2, [("speed_mean", some 100), ("nmot_mean", none)]⟩
        [("speed_mean", (0, 100)), ("nmot_mean", (0, 0))]
        ⟨"engine", [("speed_mean", 2/5), ("nmot_mean", 3/5)]⟩
      = (if totalWeight ⟨"engine", [("speed_mean", 2/5), ("nmot_mean", 3/5)]⟩ = 0 then 0
         else ((presentWeights ⟨1, 2, [("speed_mean", some 100), ("nmot_mean", none)]⟩
              ⟨"engine", [("speed_mean", 2/5), ("nmot_mean", 3/5)]⟩).map (fun fw =>
            fw.2 * normalize
              (rowGet ⟨1, 2, [("speed_mean", some 100), ("nmot_mean", none)]⟩ fw.1)
              (statsGet [("speed_mean", (0, 100)), ("nmot_mean", (0, 0))] fw.1).1
              (statsGet [("speed_mean", (0, 100)), ("nmot_mean", (0, 0))] fw.1).2)).sum
            / totalWeight ⟨"engine", [("speed_mean", 2/5), ("nmot_mean", 3/5)]⟩) :=
  (componentScore_null_weights ⟨1, 2, [("speed_mean", some 100), ("nmot_mean", none)]⟩
    [("speed_mean", (0, 100)), ("nmot_mean", (0, 0))]
    ⟨"engine", [("speed_mean", 2/5), ("nmot_mean", 3/5)]⟩).1

/-- **C8, amended, witness.** A one-row table carrying only `speed_mean`
triggers the validation error; its missing-feature list contains
`nmot_mean`. -/
theorem computeStream_missing_features_witness :
    ∃ missing, computeStream ⟨["speed_mean"], [⟨1, 1, []⟩]⟩ (3/5) (1/500)
        = .error (.missingColumns missing) ∧
      missing ≠ [] ∧
      ∀ f, f ∈ missing ↔ (f ∈ requiredCols ∧ f ∉ (["speed_mean"] : List String)) :=
  (computeStream_missing_features ⟨["speed_mean"], [⟨1, 1, []⟩]⟩ (3/5) (1/500)
    (by decide)).1 ⟨"nmot_mean", by decide, by decide⟩

/-! ### C7: pivot pass-through and idempotence -/

lemma dupMaskAux_length (seen : List String) (cols : List String) :
    (dupMaskAux seen cols).length = cols.length := by
  induction cols generalizing seen with
  | nil => rfl
  | cons c cs ih => simp [dupMaskAux, ih]

lemma dropMasked_subset {α : Type} (mask : List Bool) (xs : List α) :
    ∀ a ∈ dropMasked mask xs, a ∈ xs := by
  intro a ha
  unfold dropMasked at ha
  obtain ⟨p, hp, rfl⟩ := List.mem_map.mp ha
  exact (List.of_mem_zip (List.mem_filter.mp hp).1).2

lemma dropMasked_length_le {α : Type} :
    ∀ (mask : List Bool) (xs : List α),
      (dropMasked mask xs).length ≤ (mask.filter (fun b => !b)).length := by
  intro mask
  induction mask with
  | nil => intro xs; simp [dropMasked]
  | cons b ms ih =>
    intro xs
    cases xs with
    | nil => simp [dropMasked]
    | cons x xs' =>
      cases b with
      | false =>
        have := ih xs'
        simpa [dropMasked, List.filter_cons] using Nat.succ_le_succ this
      | true =>
        have := ih xs'
        simpa [dropMasked, List.filter_cons] using this.trans (Nat.le_refl _)

lemma dropMasked_replicate_false {α : Type} :
    ∀ (n : ℕ) (xs : List α), xs.length ≤ n →
      dropMasked (List.replicate n false) xs = xs := by
  intro n
  induction n with
  | zero =>
    intro xs h
    rw [Nat.le_zero] at h
    rw [List.eq_nil_of_length_eq_zero h]
    rfl
  | succ m ih =>
    intro xs h
    cases xs with
    | nil => rfl
    | cons x xs' =>
      have : xs'.length ≤ m := Nat.le_of_succ_le_succ h
      simp [List.replicate_succ, dropMasked, List.filter_cons] at *
      exact ih xs' this

lemma dupMaskAux_all_false (cols : List String) :
    ∀ seen, (∀ c ∈ cols, c ∉ seen) → cols.Nodup →
      dupMaskAux seen cols = List.replicate cols.length false := by
  induction cols with
  | nil => intro seen _ _; rfl
  | cons c cs ih =>
    intro seen hseen hnd
    have hc : (c ∈ seen) = False := by
      simp [hseen c (List.mem_cons_self c cs)]
    have hcs : ∀ a ∈ cs, a ∉ c :: seen := by
      intro a ha
      simp only [List.mem_cons]
      push_neg
      exact ⟨fun e => (List.nodup_cons.mp hnd).1 (e ▸ ha),
        hseen a (List.mem_cons_of_mem c ha)⟩
    simp [dupMaskAux, hc, List.replicate_succ,
      ih (c :: seen) hcs (List.nodup_cons.mp hnd).2]

lemma dropMasked_dupMask_nodup (cols : List String) :
    ∀ seen, (dropMasked (dupMaskAux seen cols) cols).Nodup ∧
      ∀ x ∈ dropMasked (dupMaskAux seen cols) cols, x ∉ seen := by
  induction cols with
  | nil => intro seen; exact ⟨List.nodup_nil, by simp [dropMasked, dupMaskAux]⟩
  | cons c cs ih =>
    intro seen
    by_cases hc : c ∈ seen
    · have : dropMasked (dupMaskAux seen (c :: cs)) (c :: cs)
          = dropMasked (dupMaskAux (c :: seen) cs) cs := by
        simp [dupMaskAux, hc, dropMasked, List.filter_cons]
      rw [this]
      refine ⟨(ih (c :: seen)).1, ?_⟩
      intro x hx
      have := (ih (c :: seen)).2 x hx
      exact fun hxs => this (List.mem_cons_of_mem c hxs)
    · have : dropMasked (dupMaskAux seen (c :: cs)) (c :: cs)
          = c :: dropMasked (dupMaskAux (c :: seen) cs) cs := by
        simp [dupMaskAux, hc, dropMasked, List.filter_cons]
      rw [this]
      have htail := ih (c :: seen)
      refine ⟨List.nodup_cons.mpr ⟨?_, htail.1⟩, ?_⟩
      · intro hmem
        exact (htail.2 c hmem) (List.mem_cons_self c seen)
      · intro x hx
        rcases List.mem_cons.mp hx with rfl | hx'
        · exact hc
        · intro hxs
          exact (htail.2 x hx') (List.mem_cons_of_mem c hxs)

lemma dropMasked_length_eq {α : Type} :
    ∀ (mask : List Bool) (xs : List α), mask.length ≤ xs.length →
      (dropMasked mask xs).length = (mask.filter (fun b => !b)).length := by
  intro mask
  induction mask with
  | nil => intro xs _; simp [dropMasked]
  | cons b ms ih =>
    intro xs h
    cases xs with
    | nil => simp at h
    | cons x xs' =>
      have h' : ms.length ≤ xs'.length := Nat.le_of_succ_le_succ h
      cases b with
      | false => simpa [dropMasked, List.filter_cons] using ih xs' h'
      | true => simpa [dropMasked, List.filter_cons] using ih xs' h'

/-- Columns surviving `dedupColumns` were columns of the input. -/
lemma dedupColumns_cols_subset (df : PDF) :
    ∀ c ∈ (dedupColumns df).cols, c ∈ df.cols := by
  intro c hc
  exact dropMasked_subset _ _ c hc

/-- On a table with duplicate-free columns and rows no longer than the
column list, `dedupColumns` is the identity. -/
lemma dedupColumns_eq_self (df : PDF) (hnd : df.cols.Nodup)
    (hlen : ∀ row ∈ df.rows, row.length ≤ df.cols.length) :
    dedupColumns df = df := by
  have hmask : dupMaskAux [] df.cols = List.replicate df.cols.length false :=
    dupMaskAux_all_false df.cols [] (by intro c _; simp) hnd
  have h1 : dropMasked (List.replicate df.cols.length false) df.cols = df.cols :=
    dropMasked_replicate_false _ _ (Nat.le_refl _)
  have h2 : df.rows.map (dropMasked (List.replicate df.cols.length false)) = df.rows := by
    have hall : ∀ row ∈ df.rows,
        dropMasked (List.replicate df.cols.length false) row = row :=
      fun row hr => dropMasked_replicate_false _ _ (hlen row hr)
    calc df.rows.map (dropMasked (List.replicate df.cols.length false))
        = df.rows.map id := List.map_congr_left hall
      _ = df.rows := List.map_id df.rows
  unfold dedupColumns
  rw [hmask, h1, h2]

/-- `dedupColumns` is idempotent on every table. -/
lemma dedupColumns_idem (df : PDF) :
    dedupColumns (dedupColumns df) = dedupColumns df := by
  apply dedupColumns_eq_self
  · exact (dropMasked_dupMask_nodup df.cols []).1
  · intro row hrow
    obtain ⟨r0, _, rfl⟩ := List.mem_map.mp hrow
    show (dropMasked (dupMaskAux [] df.cols) r0).length ≤
      (dropMasked (dupMaskAux [] df.cols) df.cols).length
    rw [dropMasked_length_eq (dupMaskAux [] df.cols) df.cols
      (le_of_eq (dupMaskAux_length [] df.cols))]
    exact dropMasked_length_le _ _


/-- **C7, counterexample.** A table with a duplicated column label `x` lacks
the required long-format columns, yet Signal Pivot does not return it
unchanged: the duplicate-column dropping (`df.loc[:, ~columns.duplicated()]`)
happens before the pass-through. -/
theorem pivot_passthrough_cex :
    ("vehicle_id" ∈ pivotRequired ∧ "vehicle_id" ∉ (["x", "x"] : List String)) ∧
      pivotTelemetrySignals ⟨["x", "x"], [[.num 1, .num 2]]⟩
        = ⟨["x"], [[.num 1]]⟩ ∧
      (⟨["x"], [[.num 1]]⟩ : PDF) ≠ ⟨["x", "x"], [[.num 1, .num 2]]⟩ := by
  refine ⟨⟨?_, ?_⟩, ?_, ?_⟩ <;> decide

/-- **C7, amended.** For every table lacking some required long-format
column, Signal Pivot returns the table with duplicate-labelled columns
dropped (first occurrence kept); when the table has duplicate-free column
labels and well-formed rows this is the unchanged table itself; and in all
such cases applying the pivot twice equals applying it once. -/
theorem pivot_passthrough_idem (df : PDF)
    (hreq : ∃ c ∈ pivotRequired, c ∉ df.cols) :
    pivotTelemetrySignals df = dedupColumns df ∧
    (df.cols.Nodup → (∀ row ∈ df.rows, row.length = df.cols.length) →
      pivotTelemetrySignals df = df) ∧
    pivotTelemetrySignals (pivotTelemetrySignals df) = pivotTelemetrySignals df := by
  obtain ⟨c, hc, hcn⟩ := hreq
  have hcond : ∀ (d : PDF), (∀ x ∈ d.cols, x ∈ df.cols) →
      (pivotRequired.all (fun q => d.cols.contains q)) = false := by
    intro d hsub
    rw [List.all_eq_false]
    refine ⟨c, hc, ?_⟩
    simpa using fun hmem => hcn (hsub c hmem)
  have hbranch : ∀ (d : PDF), (∀ x ∈ d.cols, x ∈ df.cols) →
      (if (pivotRequired.all fun q => d.cols.contains q) = true
        then pivotLong d else d) = d := by
    intro d hsub
    rw [hcond d hsub]
    simp
  have hmain : pivotTelemetrySignals df = dedupColumns df := by
    unfold pivotTelemetrySignals
    exact hbranch (dedupColumns df) (dedupColumns_cols_subset df)
  refine ⟨hmain, ?_, ?_⟩
  · intro hnd hlen
    rw [hmain]
    exact dedupColumns_eq_self df hnd (fun row hr => le_of_eq (hlen row hr))
  · rw [hmain]
    have hmain2 : pivotTelemetrySignals (dedupColumns df)
        = dedupColumns (dedupColumns df) := by
      unfold pivotTelemetrySignals
      exact hbranch (dedupColumns (dedupColumns df))
        (fun x hx => dedupColumns_cols_subset df x
          (dedupColumns_cols_subset (dedupColumns df) x hx))
    rw [hmain2, dedupColumns_idem]

/-- **C7, amended, witness.** The amended pass-through behavior evaluated on
the duplicate-column table and on a clean wide table. -/
theorem pivot_passthrough_idem_witness :
    pivotTelemetrySignals ⟨["x", "x"], [[.num 1, .num 2]]⟩
      = dedupColumns ⟨["x", "x"], [[.num 1, .num 2]]⟩ ∧
    pivotTelemetrySignals (pivotTelemetrySignals ⟨["x", "x"], [[.num 1, .num 2]]⟩)
      = pivotTelemetrySignals ⟨["x", "x"], [[.num 1, .num 2]]⟩ :=
  ⟨(pivot_passthrough_idem ⟨["x", "x"], [[.num 1, .num 2]]⟩
      ⟨"vehicle_id", by decide, by decide⟩).1,
   (pivot_passthrough_idem ⟨["x", "x"], [[.num 1, .num 2]]⟩
      ⟨"vehicle_id", by decide, by decide⟩).2.2⟩

/-! ### Lap Window Builder lemmas -/

/-- Timestamps of the events of one table for one `(vehicle, lap)` key. -/
def keyTimes (l : List Ev) (v : ℕ) (lp : ℤ) : List ℤ :=
  (l.filter (fun e => evKey e = (v, lp))).map (fun e => e.timestamp)

lemma mem_dedupFirstAux_sub {l : List Ev} {seen : List (ℕ × ℤ)} {a : Ev} :
    a ∈ dedupFirstAux seen l → a ∈ l := by
  induction l generalizing seen with
  | nil => intro h; simp [dedupFirstAux] at h
  | cons e rest ih =>
    intro h
    unfold dedupFirstAux at h
    by_cases hs : evKey e ∈ seen
    · rw [if_pos hs] at h
      exact List.mem_cons_of_mem e (ih h)
    · rw [if_neg hs] at h
      rcases List.mem_cons.mp h with rfl | h'
      · exact List.mem_cons_self _ _
      · exact List.mem_cons_of_mem _ (ih h')

lemma mem_dedupFirstAux_notSeen {l : List Ev} {seen : List (ℕ × ℤ)} {a : Ev} :
    a ∈ dedupFirstAux seen l → evKey a ∉ seen := by
  induction l generalizing seen with
  | nil => intro h; simp [dedupFirstAux] at h
  | cons e rest ih =>
    intro h
    unfold dedupFirstAux at h
    by_cases hs : evKey e ∈ seen
    · rw [if_pos hs] at h
      exact ih h
    · rw [if_neg hs] at h
      rcases List.mem_cons.mp h with rfl | h'
      · exact hs
      · intro hcon
        exact ih h' (List.mem_cons_of_mem _ hcon)

lemma dedupFirstAux_keys_complete {l : List Ev} {e : Ev} :
    ∀ seen, e ∈ l → evKey e ∉ seen →
      ∃ a ∈ dedupFirstAux seen l, evKey a = evKey e := by
  induction l with
  | nil => intro seen h; simp at h
  | cons x rest ih =>
    intro seen hmem hns
    unfold dedupFirstAux
    by_cases hs : evKey x ∈ seen
    · rw [if_pos hs]
      rcases List.mem_cons.mp hmem with rfl | h'
      · exact absurd hs hns
      · exact ih seen h' hns
    · rw [if_neg hs]
      rcases List.mem_cons.mp hmem with rfl | h'
      · exact ⟨e, List.mem_cons_self _ _, rfl⟩
      · by_cases he : evKey e = evKey x
        · exact ⟨x, List.mem_cons_self _ _, he.symm⟩
        · obtain ⟨a, ha, hk⟩ := ih (evKey x :: seen) h'
            (by simp only [List.mem_cons]; push_neg; exact ⟨he, hns⟩)
          exact ⟨a, List.mem_cons_of_mem x ha, hk⟩

lemma dedupFirstAux_unique {l : List Ev} {a b : Ev} :
    ∀ seen, a ∈ dedupFirstAux seen l → b ∈ dedupFirstAux seen l →
      evKey a = evKey b → a = b := by
  induction l with
  | nil => intro seen h; simp [dedupFirstAux] at h
  | cons x rest ih =>
    intro seen ha hb hk
    unfold dedupFirstAux at ha hb
    by_cases hs : evKey x ∈ seen
    · rw [if_pos hs] at ha hb
      exact ih seen ha hb hk
    · rw [if_neg hs] at ha hb
      rcases List.mem_cons.mp ha with rfl | ha'
      · rcases List.mem_cons.mp hb with rfl | hb'
        · rfl
        · exact absurd (by rw [hk]; exact List.mem_cons_self _ _ :
            evKey b ∈ evKey a :: seen) (mem_dedupFirstAux_notSeen hb')
      · rcases List.mem_cons.mp hb with rfl | hb'
        · exact absurd (by rw [hk]; exact List.mem_cons_self _ _ :
            evKey a ∈ evKey b :: seen) (mem_dedupFirstAux_notSeen ha')
        · exact ih _ ha' hb' hk

/-- In a `Pairwise r` list, a survivor of the key-dedup relates (by `r`) to
every later (and hence every other) member of its key class. -/
lemma dedupFirstAux_first {r : Ev → Ev → Prop} {l : List Ev} {a b : Ev} :
    ∀ seen, List.Pairwise r l → a ∈ dedupFirstAux seen l → b ∈ l →
      evKey a = evKey b → a = b ∨ r a b := by
  induction l with
  | nil => intro seen _ h; simp [dedupFirstAux] at h
  | cons x rest ih =>
    intro seen hp ha hb hk
    have hhead : ∀ y ∈ rest, r x y := (List.pairwise_cons.mp hp).1
    have htail : List.Pairwise r rest := (List.pairwise_cons.mp hp).2
    unfold dedupFirstAux at ha
    by_cases hs : evKey x ∈ seen
    · rw [if_pos hs] at ha
      rcases List.mem_cons.mp hb with rfl | hb'
      · exact absurd (by rw [hk]; exact hs : evKey a ∈ seen)
          (mem_dedupFirstAux_notSeen ha)
      · exact ih seen htail ha hb' hk
    · rw [if_neg hs] at ha
      rcases List.mem_cons.mp ha with rfl | ha'
      · rcases List.mem_cons.mp hb with rfl | hb'
        · exact Or.inl rfl
        · exact Or.inr (hhead b hb')
      · rcases List.mem_cons.mp hb with rfl | hb'
        · exact absurd (by rw [hk]; exact List.mem_cons_self _ _ :
            evKey a ∈ evKey b :: seen) (mem_dedupFirstAux_notSeen ha')
        · exact ih _ htail ha' hb' hk

lemma mem_dedupFirst_sub {l : List Ev} {a : Ev} (h : a ∈ dedupFirst l) : a ∈ l :=
  mem_dedupFirstAux_sub h

lemma mem_dedupLast_sub {l : List Ev} {a : Ev} (h : a ∈ dedupLast l) : a ∈ l := by
  unfold dedupLast at h
  rw [List.mem_reverse] at h
  have := mem_dedupFirstAux_sub h
  rwa [List.mem_reverse] at this

/-- The start-table survivor of a key carries that key's earliest
timestamp (the table is sorted by `(vehicle, lap, timestamp)` first). -/
lemma dedupFirst_sorted_min {l : List Ev} {a b : Ev}
    (hs : List.Sorted evLE l) (ha : a ∈ dedupFirst l) (hb : b ∈ l)
    (hk : evKey a = evKey b) : a.timestamp ≤ b.timestamp := by
  rcases dedupFirstAux_first [] hs ha hb hk with rfl | hr
  · exact le_refl _
  · unfold evLE at hr
    have hv : a.vehicle_id = b.vehicle_id := congrArg Prod.fst hk
    have hl : a.lap_number = b.lap_number := congrArg Prod.snd hk
    rcases hr with h1 | ⟨_, h2 | ⟨_, h3⟩⟩
    · exact absurd hv (Nat.ne_of_lt h1)
    · exact absurd hl (Int.ne_of_lt h2)
    · exact h3

/-- The end-table survivor of a key carries that key's latest timestamp. -/
lemma dedupLast_sorted_max {l : List Ev} {a b : Ev}
    (hs : List.Sorted evLE l) (ha : a ∈ dedupLast l) (hb : b ∈ l)
    (hk : evKey a = evKey b) : b.timestamp ≤ a.timestamp := by
  unfold dedupLast at ha
  rw [List.mem_reverse] at ha
  have hp : List.Pairwise (fun x y => evLE y x) l.reverse :=
    (List.pairwise_reverse).mpr hs
  have hb' : b ∈ l.reverse := List.mem_reverse.mpr hb
  rcases dedupFirstAux_first [] hp ha hb' hk with rfl | hr
  · exact le_refl _
  · unfold evLE at hr
    have hv : a.vehicle_id = b.vehicle_id := congrArg Prod.fst hk
    have hl : a.lap_number = b.lap_number := congrArg Prod.snd hk
    rcases hr with h1 | ⟨_, h2 | ⟨_, h3⟩⟩
    · exact absurd hv.symm (Nat.ne_of_lt h1)
    · exact absurd hl.symm (Int.ne_of_lt h2)
    · exact h3

lemma dedupLast_keys_complete {l : List Ev} {e : Ev} (hmem : e ∈ l) :
    ∃ a ∈ dedupLast l, evKey a = evKey e := by
  unfold dedupLast
  obtain ⟨a, ha, hk⟩ :=
    dedupFirstAux_keys_complete [] (List.mem_reverse.mpr hmem) (by simp)
  exact ⟨a, List.mem_reverse.mpr ha, hk⟩

lemma dedupLast_unique {l : List Ev} {a b : Ev}
    (ha : a ∈ dedupLast l) (hb : b ∈ dedupLast l) (hk : evKey a = evKey b) :
    a = b := by
  unfold dedupLast at ha hb
  rw [List.mem_reverse] at ha hb
  exact dedupFirstAux_unique [] ha hb hk

lemma mem_keyTimes_iff {l : List Ev} {v : ℕ} {lp : ℤ} {t : ℤ} :
    t ∈ keyTimes l v lp ↔ ∃ e ∈ l, evKey e = (v, lp) ∧ e.timestamp = t := by
  unfold keyTimes
  constructor
  · intro h
    obtain ⟨e, he, rfl⟩ := List.mem_map.mp h
    have := List.mem_filter.mp he
    exact ⟨e, this.1, by simpa using this.2, rfl⟩
  · rintro ⟨e, he, hk, rfl⟩
    exact List.mem_map.mpr ⟨e, List.mem_filter.mpr ⟨he, by simpa using hk⟩, rfl⟩

/-- Structure of any produced window: it is assembled from the surviving
earliest-start event and the surviving latest-end event of one key. -/
lemma mem_prepareLapWindows_elim {ls le : List Ev} {w : Window}
    (h : w ∈ prepareLapWindows ls le) :
    ∃ a b, a ∈ dedupFirst (List.insertionSort evLE ls) ∧
      b ∈ dedupLast (List.insertionSort evLE le) ∧
      evKey b = evKey a ∧
      w = ⟨a.vehicle_id, a.lap_number, a.timestamp, b.timestamp,
        b.timestamp - a.timestamp⟩ := by
  unfold prepareLapWindows at h
  rw [List.mem_insertionSort] at h
  obtain ⟨a, ha, hfa⟩ := List.mem_filterMap.mp h
  cases hfind : (dedupLast (List.insertionSort evLE le)).find?
      (fun b => evKey b = evKey a) with
  | none => rw [hfind] at hfa; simp at hfa
  | some b =>
    rw [hfind] at hfa
    simp only [Option.map_some'] at hfa
    refine ⟨a, b, ha, List.mem_of_find?_eq_some hfind, ?_,
      (Option.some.inj hfa).symm⟩
    simpa using List.find?_some hfind

/-- Every key present in both tables yields a window. -/
lemma prepareLapWindows_complete {ls le : List Ev} {v : ℕ} {lp : ℤ}
    (hstart : ∃ e ∈ ls, evKey e = (v, lp)) (hend : ∃ e ∈ le, evKey e = (v, lp)) :
    ∃ w ∈ prepareLapWindows ls le, w.vehicle_id = v ∧ w.lap_number = lp := by
  obtain ⟨es, hes, hks⟩ := hstart
  obtain ⟨ee, hee, hke⟩ := hend
  obtain ⟨a, ha, hka⟩ := dedupFirstAux_keys_complete []
    ((List.mem_insertionSort evLE).mpr hes) (by simp)
  obtain ⟨b, hb, hkb⟩ := dedupLast_keys_complete
    ((List.mem_insertionSort evLE).mpr hee)
  have hpred : ∃ x ∈ dedupLast (List.insertionSort evLE le),
      (fun x => decide (evKey x = evKey a)) x = true := by
    refine ⟨b, hb, ?_⟩
    simp [hkb, hke, hka, hks]
  obtain ⟨b0, hfind⟩ := Option.isSome_iff_exists.mp
    (List.find?_isSome.mpr hpred)
  refine ⟨⟨a.vehicle_id, a.lap_number, a.timestamp, b0.timestamp,
    b0.timestamp - a.timestamp⟩, ?_, ?_, ?_⟩
  · unfold prepareLapWindows
    rw [List.mem_insertionSort]
    refine List.mem_filterMap.mpr ⟨a, ha, ?_⟩
    rw [hfind]
    rfl
  · show a.vehicle_id = v
    have : evKey a = (v, lp) := hka.trans hks
    exact congrArg Prod.fst this
  · show a.lap_number = lp
    have : evKey a = (v, lp) := hka.trans hks
    exact congrArg Prod.snd this

/-- At most one window per key. -/
lemma prepareLapWindows_unique {ls le : List Ev} {w1 w2 : Window}
    (h1 : w1 ∈ prepareLapWindows ls le) (h2 : w2 ∈ prepareLapWindows ls le)
    (hv : w1.vehicle_id = w2.vehicle_id) (hl : w1.lap_number = w2.lap_number) :
    w1 = w2 := by
  obtain ⟨a1, b1, ha1, hb1, hk1, hw1⟩ := mem_prepareLapWindows_elim h1
  obtain ⟨a2, b2, ha2, hb2, hk2, hw2⟩ := mem_prepareLapWindows_elim h2
  subst hw1
  subst hw2
  dsimp only at hv hl
  have hka : evKey a1 = evKey a2 := by
    unfold evKey
    rw [hv, hl]
  have haa : a1 = a2 := dedupFirstAux_unique [] ha1 ha2 hka
  subst haa
  have hbb : b1 = b2 := dedupLast_unique hb1 hb2 (by rw [hk1, hk2])
  subst hbb
  rfl

/-- The produced window of a key carries that key's earliest start
timestamp and latest end timestamp. -/
lemma prepareLapWindows_bounds {ls le : List Ev} {w : Window}
    (h : w ∈ prepareLapWindows ls le) :
    w.lap_start_time ∈ keyTimes ls w.vehicle_id w.lap_number ∧
    (∀ t ∈ keyTimes ls w.vehicle_id w.lap_number, w.lap_start_time ≤ t) ∧
    w.lap_end_time ∈ keyTimes le w.vehicle_id w.lap_number ∧
    (∀ t ∈ keyTimes le w.vehicle_id w.lap_number, t ≤ w.lap_end_time) := by
  obtain ⟨a, b, ha, hb, hk, hw⟩ := mem_prepareLapWindows_elim h
  subst hw
  dsimp only
  have hkeya : evKey a = (a.vehicle_id, a.lap_number) := rfl
  have hkeyb : evKey b = (a.vehicle_id, a.lap_number) := by rw [hk]; exact rfl
  have hsorted_s : List.Sorted evLE (List.insertionSort evLE ls) :=
    List.sorted_insertionSort evLE ls
  have hsorted_e : List.Sorted evLE (List.insertionSort evLE le) :=
    List.sorted_insertionSort evLE le
  refine ⟨?_, ?_, ?_, ?_⟩
  · exact mem_keyTimes_iff.mpr
      ⟨a, (List.mem_insertionSort evLE).mp (mem_dedupFirst_sub ha), hkeya, rfl⟩
  · intro t ht
    obtain ⟨e, he, hke, hte⟩ := mem_keyTimes_iff.mp ht
    rw [← hte]
    exact dedupFirst_sorted_min hsorted_s ha
      ((List.mem_insertionSort evLE).mpr he) (hkeya.trans hke.symm)
  · exact mem_keyTimes_iff.mpr
      ⟨b, (List.mem_insertionSort evLE).mp (mem_dedupLast_sub hb), hkeyb, rfl⟩
  · intro t ht
    obtain ⟨e, he, hke, hte⟩ := mem_keyTimes_iff.mp ht
    rw [← hte]
    exact dedupLast_sorted_max hsorted_e hb
      ((List.mem_insertionSort evLE).mpr he) (hkeyb.trans hke.symm)

lemma prepareLapWindows_sorted (ls le : List Ev) :
    List.Sorted winLE (prepareLapWindows ls le) := by
  unfold prepareLapWindows
  exact List.sorted_insertionSort winLE _

/-- **C6.** The Lap Window Builder produces, for every `(vehicle_id,
lap_number)` pair present in both event tables, exactly one window — whose
start time is the earliest start-event timestamp of the pair and whose end
time is the latest end-event timestamp — and the output is sorted by
`(vehicle_id, lap_number)`.  Membership of the start/end times in the
pair's event-time lists also shows no window is produced for a pair present
in only one table. -/
theorem prepareLapWindows_spec (lap_start lap_end : List Ev) :
    (∀ w ∈ prepareLapWindows lap_start lap_end,
      w.lap_start_time ∈ keyTimes lap_start w.vehicle_id w.lap_number ∧
      (∀ t ∈ keyTimes lap_start w.vehicle_id w.lap_number, w.lap_start_time ≤ t) ∧
      w.lap_end_time ∈ keyTimes lap_end w.vehicle_id w.lap_number ∧
      (∀ t ∈ keyTimes lap_end w.vehicle_id w.lap_number, t ≤ w.lap_end_time)) ∧
    (∀ v lp, (∃ e ∈ lap_start, evKey e = (v, lp)) →
      (∃ e ∈ lap_end, evKey e = (v, lp)) →
      ∃ w ∈ prepareLapWindows lap_start lap_end,
        w.vehicle_id = v ∧ w.lap_number = lp) ∧
    (∀ w1 ∈ prepareLapWindows lap_start lap_end,
      ∀ w2 ∈ prepareLapWindows lap_start lap_end,
      w1.vehicle_id = w2.vehicle_id → w1.lap_number = w2.lap_number → w1 = w2) ∧
    List.Sorted winLE (prepareLapWindows lap_start lap_end) :=
  ⟨fun _ hw => prepareLapWindows_bounds hw,
   fun _ _ hs he => prepareLapWindows_complete hs he,
   fun _ h1 _ h2 hv hl => prepareLapWindows_unique h1 h2 hv hl,
   prepareLapWindows_sorted _ _⟩

/-- **C6, witness.** The spec's duplicate-start scenario: two start events
for (vehicle 1, lap 3) at `t = 12` and `t = 10`; the builder produces the
window of that pair, and it keeps start time 10 (the earliest). -/
theorem prepareLapWindows_spec_witness :
    (∃ w ∈ prepareLapWindows [⟨1, 3, 12⟩, ⟨1, 3, 10⟩] [⟨1, 3, 15⟩],
      w.vehicle_id = 1 ∧ w.lap_number = 3) ∧
    prepareLapWindows [⟨1, 3, 12⟩, ⟨1, 3, 10⟩] [⟨1, 3, 15⟩]
      = [⟨1, 3, 10, 15, 5⟩] :=
  ⟨(prepareLapWindows_spec [⟨1, 3, 12⟩, ⟨1, 3, 10⟩] [⟨1, 3, 15⟩]).2.1 1 3
      ⟨⟨1, 3, 12⟩, by decide, by decide⟩ ⟨⟨1, 3, 15⟩, by decide, by decide⟩,
   by decide⟩

/-- **C2, counterexample.** The builder does not validate that a lap's
start precedes its end: with a single start event at `t = 10` and a single
end event at `t = 5` for the same lap, it accepts the tables (they have the
required columns) and emits a window with `start_time = 10 > 5 = end_time`,
violating the claimed invariant. -/
theorem lapWindow_invariant_cex :
    prepareLapWindows [⟨1, 1, 10⟩] [⟨1, 1, 5⟩] = [⟨1, 1, 10, 5, -5⟩] ∧
    ¬ ((10 : ℤ) < 5) := by
  constructor <;> decide

/-- **C2, amended.** The builder itself enforces only the sort order by
`(vehicle_id, lap_number)`.  `start_time < end_time` and per-vehicle
disjointness hold exactly when the event tables themselves are well-formed:
if for every pair present in both tables the earliest start precedes the
latest end, every produced window satisfies `start_time < end_time`; if
moreover for a fixed vehicle each lap's latest end precedes every higher
lap's earliest start, the produced windows of a vehicle are pairwise
disjoint and ordered consistently by lap_number and by time. -/
theorem lapWindow_invariant (lap_start lap_end : List Ev)
    (h1 : ∀ v lp t1 t2, t1 ∈ keyTimes lap_start v lp →
      (∀ t ∈ keyTimes lap_start v lp, t1 ≤ t) →
      t2 ∈ keyTimes lap_end v lp →
      (∀ t ∈ keyTimes lap_end v lp, t ≤ t2) → t1 < t2)
    (h2 : ∀ v lp1 lp2 t2 t1, lp1 < lp2 →
      t2 ∈ keyTimes lap_end v lp1 → (∀ t ∈ keyTimes lap_end v lp1, t ≤ t2) →
      t1 ∈ keyTimes lap_start v lp2 →
      (∀ t ∈ keyTimes lap_start v lp2, t1 ≤ t) → t2 < t1) :
    (∀ w ∈ prepareLapWindows lap_start lap_end,
      w.lap_start_time < w.lap_end_time) ∧
    (∀ w1 ∈ prepareLapWindows lap_start lap_end,
      ∀ w2 ∈ prepareLapWindows lap_start lap_end,
      w1.vehicle_id = w2.vehicle_id → w1.lap_number < w2.lap_number →
      w1.lap_end_time < w2.lap_start_time) ∧
    List.Sorted winLE (prepareLapWindows lap_start lap_end) := by
  refine ⟨?_, ?_, prepareLapWindows_sorted _ _⟩
  · intro w hw
    obtain ⟨hms, hmins, hme, hmaxe⟩ := prepareLapWindows_bounds hw
    exact h1 w.vehicle_id w.lap_number _ _ hms hmins hme hmaxe
  · intro w1 hw1 w2 hw2 hv hl
    obtain ⟨_, _, hme1, hmax1⟩ := prepareLapWindows_bounds hw1
    obtain ⟨hms2, hmin2, _, _⟩ := prepareLapWindows_bounds hw2
    refine h2 w1.vehicle_id w1.lap_number w2.lap_number _ _ hl hme1 hmax1 ?_ ?_
    · rw [hv]; exact hms2
    · rw [hv]; exact hmin2

/-- **C2, amended, witness.** A single well-formed lap (start 0, end 10):
the hypotheses hold, and the conclusions evaluate on the produced window. -/
theorem lapWindow_invariant_witness :
    (∀ w ∈ prepareLapWindows [⟨1, 1, 0⟩] [⟨1, 1, 10⟩],
      w.lap_start_time < w.lap_end_time) ∧
    (∀ w1 ∈ prepareLapWindows [⟨1, 1, 0⟩] [⟨1, 1, 10⟩],
      ∀ w2 ∈ prepareLapWindows [⟨1, 1, 0⟩] [⟨1, 1, 10⟩],
      w1.vehicle_id = w2.vehicle_id → w1.lap_number < w2.lap_number →
      w1.lap_end_time < w2.lap_start_time) ∧
    List.Sorted winLE (prepareLapWindows [⟨1, 1, 0⟩] [⟨1, 1, 10⟩]) := by
  refine lapWindow_invariant [⟨1, 1, 0⟩] [⟨1, 1, 10⟩] ?_ ?_
  · intro v lp t1 t2 ht1 _ ht2 _
    obtain ⟨e1, he1, hk1, hte1⟩ := mem_keyTimes_iff.mp ht1
    obtain ⟨e2, he2, hk2, hte2⟩ := mem_keyTimes_iff.mp ht2
    have he1' : e1 = ⟨1, 1, 0⟩ := by simpa using he1
    have he2' : e2 = ⟨1, 1, 10⟩ := by simpa using he2
    rw [← hte1, ← hte2, he1', he2']
    decide
  · intro v lp1 lp2 t2 t1 hlt ht2 _ ht1 _
    obtain ⟨e1, he1, hk1, _⟩ := mem_keyTimes_iff.mp ht2
    obtain ⟨e2, he2, hk2, _⟩ := mem_keyTimes_iff.mp ht1
    have he1' : e1 = ⟨1, 1, 10⟩ := by simpa using he1
    have he2' : e2 = ⟨1, 1, 0⟩ := by simpa using he2
    rw [he1'] at hk1
    rw [he2'] at hk2
    have hl1 : lp1 = 1 := by
      have := congrArg Prod.snd hk1
      simpa [evKey] using this.symm
    have hl2 : lp2 = 1 := by
      have := congrArg Prod.snd hk2
      simpa [evKey] using this.symm
    rw [hl1, hl2] at hlt
    exact absurd hlt (lt_irrefl 1)

/-! ### C3: Lap Assigner soundness -/

/-- What the backward as-of match guarantees about its result. -/
lemma asofMatch_some {ws : List Window} {v : ℕ} {t : ℤ} {w : Window}
    (h : asofMatch ws v t = some w) :
    w ∈ ws ∧ w.vehicle_id = v ∧ w.lap_start_time ≤ t := by
  unfold asofMatch at h
  have hmem := List.mem_of_mem_getLast? h
  have hf := List.mem_filter.mp hmem
  refine ⟨(List.mem_insertionSort winStartLE).mp hf.1, ?_, ?_⟩
  · have := hf.2
    simp only [decide_eq_true_eq] at this
    exact this.1
  · have := hf.2
    simp only [decide_eq_true_eq] at this
    exact this.2

/-- Membership in the assigner's output, unpacked. -/
lemma mem_assignLaps_elim {telemetry : List Sample} {lap_windows : List Window}
    {s : Sample} {w : Window}
    (h : (s, w) ∈ assignLaps telemetry lap_windows) :
    s ∈ telemetry ∧ asofMatch lap_windows s.vehicle_id s.meta_time = some w ∧
      s.meta_time ≤ w.lap_end_time := by
  unfold assignLaps at h
  obtain ⟨x, hx, hfx⟩ := List.mem_filterMap.mp h
  cases hm : asofMatch lap_windows x.vehicle_id x.meta_time with
  | none => rw [hm] at hfx; simp at hfx
  | some w0 =>
    rw [hm] at hfx
    dsimp only at hfx
    by_cases hle : x.meta_time ≤ w0.lap_end_time
    · rw [if_pos hle] at hfx
      obtain ⟨hxs, hww⟩ := Prod.mk.injEq .. ▸ Option.some.inj hfx
      subst hxs
      subst hww
      exact ⟨(List.mem_insertionSort sampleLE).mp hx, hm, hle⟩
    · rw [if_neg hle] at hfx
      simp at hfx

/-- **C3.** Every telemetry sample kept by the Lap Assigner is assigned to
exactly one lap window; that window belongs to the sample's vehicle and
contains the sample's timestamp (`start_time ≤ timestamp ≤ end_time`).  A
sample whose timestamp lies in no window of its vehicle — in particular one
before the vehicle's first lap start, after its last lap end, or in a gap
between windows — is dropped, without any error. -/
theorem assignLaps_soundness (telemetry : List Sample) (lap_windows : List Window) :
    (∀ p ∈ assignLaps telemetry lap_windows,
      p.2.vehicle_id = p.1.vehicle_id ∧ p.2 ∈ lap_windows ∧
      p.2.lap_start_time ≤ p.1.meta_time ∧ p.1.meta_time ≤ p.2.lap_end_time) ∧
    (∀ s w w', (s, w) ∈ assignLaps telemetry lap_windows →
      (s, w') ∈ assignLaps telemetry lap_windows → w = w') ∧
    (∀ s ∈ telemetry,
      (∀ w ∈ lap_windows, w.vehicle_id = s.vehicle_id →
        ¬ (w.lap_start_time ≤ s.meta_time ∧ s.meta_time ≤ w.lap_end_time)) →
      ∀ w, (s, w) ∉ assignLaps telemetry lap_windows) := by
  refine ⟨?_, ?_, ?_⟩
  · rintro ⟨s, w⟩ hp
    obtain ⟨_, hm, hle⟩ := mem_assignLaps_elim hp
    obtain ⟨hmem, hv, hstart⟩ := asofMatch_some hm
    exact ⟨hv, hmem, hstart, hle⟩
  · intro s w w' h1 h2
    obtain ⟨_, hm1, _⟩ := mem_assignLaps_elim h1
    obtain ⟨_, hm2, _⟩ := mem_assignLaps_elim h2
    exact Option.some.inj (hm1.symm.trans hm2)
  · intro s _ hnone w hmem
    obtain ⟨_, hm, hle⟩ := mem_assignLaps_elim hmem
    obtain ⟨hw, hv, hstart⟩ := asofMatch_some hm
    exact hnone w hw hv ⟨hstart, hle⟩

/-- **C3, witness.** Two windows for vehicle 1 (`[10,15]` and `[20,30]`):
the sample at `t = 11` is kept in the first window; the sample at `t = 17`
(in the gap) is dropped. -/
theorem assignLaps_soundness_witness :
    ((⟨1, 11⟩, ⟨1, 1, 10, 15, 5⟩) ∈
        assignLaps [⟨1, 5⟩, ⟨1, 11⟩, ⟨1, 17⟩] [⟨1, 1, 10, 15, 5⟩, ⟨1, 2, 20, 30, 10⟩] →
      ((⟨1, 1, 10, 15, 5⟩ : Window).vehicle_id = 1 ∧
        (⟨1, 1, 10, 15, 5⟩ : Window) ∈ [(⟨1, 1, 10, 15, 5⟩ : Window), ⟨1, 2, 20, 30, 10⟩] ∧
        (10 : ℤ) ≤ 11 ∧ (11 : ℤ) ≤ 15)) ∧
    (∀ w, ((⟨1, 17⟩ : Sample), w) ∉
      assignLaps [⟨1, 5⟩, ⟨1, 11⟩, ⟨1, 17⟩] [⟨1, 1, 10, 15, 5⟩, ⟨1, 2, 20, 30, 10⟩]) := by
  constructor
  · intro hp
    exact (assignLaps_soundness [⟨1, 5⟩, ⟨1, 11⟩, ⟨1, 17⟩]
      [⟨1, 1, 10, 15, 5⟩, ⟨1, 2, 20, 30, 10⟩]).1 _ hp
  · exact (assignLaps_soundness [⟨1, 5⟩, ⟨1, 11⟩, ⟨1, 17⟩]
      [⟨1, 1, 10, 15, 5⟩, ⟨1, 2, 20, 30, 10⟩]).2.2 ⟨1, 17⟩ (by decide) (by decide)

/-! ### C9: Per-Lap Aggregator coverage -/

/-- **C9.** On a lap-tagged wide table that carries at least one configured
signal column, the aggregator succeeds and produces exactly one row per
`(vehicle_id, lap)` pair of the input: the output pair set equals the input
pair set, pairs are not duplicated, and each row's `samples_per_lap` is the
exact number of input rows of that group. -/
theorem aggregatePerLap_coverage (df : WDF)
    (hlap : "lap" ∈ df.cols) (hveh : "vehicle_id" ∈ df.cols)
    (hsig : ∃ sp ∈ TELEMETRY_AGGREGATIONS, sp.1 ∈ df.cols) :
    ∃ rows, aggregatePerLap df = .ok rows ∧
      (∀ p : ℕ × ℤ, (∃ r ∈ rows, (r.vehicle_id, r.lap) = p) ↔
        ∃ x ∈ df.rows, wkey x = p) ∧
      (∀ r1 ∈ rows, ∀ r2 ∈ rows,
        r1.vehicle_id = r2.vehicle_id → r1.lap = r2.lap → r1 = r2) ∧
      (∀ r ∈ rows, r.samples_per_lap =
        (df.rows.filter (fun x => wkey x = (r.vehicle_id, r.lap))).length) := by
  have hens : (["lap", "vehicle_id"].filter (fun c => !(df.cols.contains c))) = [] := by
    simp [hlap, hveh]
  have hagg : TELEMETRY_AGGREGATIONS.filter (fun sp => df.cols.contains sp.1) ≠ [] := by
    obtain ⟨sp, hsp, hspc⟩ := hsig
    exact List.ne_nil_of_mem (List.mem_filter.mpr ⟨hsp, by simpa using hspc⟩)
  have hok : aggregatePerLap df = .ok
      ((List.insertionSort pairLE (df.rows.map wkey).dedup).map (fun k =>
        { vehicle_id := k.1
          lap := k.2
          stats := (TELEMETRY_AGGREGATIONS.filter (fun sp => df.cols.contains sp.1)).flatMap
            (fun sp => sp.2.map (fun st =>
              (sp.1 ++ "_" ++ st,
               statOf st ((df.rows.filter (fun r => wkey r = k)).filterMap
                 (fun r => wrowGet r sp.1)))))
          samples_per_lap := (df.rows.filter (fun r => wkey r = k)).length
          meta := (pivotMetaNames.filter (fun c => df.cols.contains c)).map (fun c =>
            (c, ((df.rows.filter (fun r => wkey r = k)).filterMap
              (fun r => wrowGet r c)).head?)) })) := by
    unfold aggregatePerLap
    rw [if_pos hens, if_neg hagg]
  refine ⟨_, hok, ?_, ?_, ?_⟩
  · intro p
    constructor
    · rintro ⟨r, hr, hp⟩
      obtain ⟨k, hk, rfl⟩ := List.mem_map.mp hr
      have : k ∈ (df.rows.map wkey).dedup := (List.mem_insertionSort pairLE).mp hk
      obtain ⟨x, hx, hxe⟩ := List.mem_map.mp (List.mem_dedup.mp this)
      refine ⟨x, hx, ?_⟩
      rw [hxe]
      rw [← hp]
    · rintro ⟨x, hx, rfl⟩
      refine ⟨_, List.mem_map.mpr ⟨wkey x, (List.mem_insertionSort pairLE).mpr
        (List.mem_dedup.mpr (List.mem_map.mpr ⟨x, hx, rfl⟩)), rfl⟩, rfl⟩
  · intro r1 hr1 r2 hr2 hv hl
    obtain ⟨k1, _, rfl⟩ := List.mem_map.mp hr1
    obtain ⟨k2, _, rfl⟩ := List.mem_map.mp hr2
    dsimp only at hv hl
    have : k1 = k2 := Prod.ext hv hl
    rw [this]
  · intro r hr
    obtain ⟨k, _, rfl⟩ := List.mem_map.mp hr
    rfl

/-- **C9, witness.** Three rows of vehicle 1 (two on lap 1, one on lap 2)
with a `speed` column: the aggregator succeeds with the claimed coverage and
exact group counts. -/
theorem aggregatePerLap_coverage_witness :
    ∃ rows, aggregatePerLap ⟨["vehicle_id", "lap", "speed"],
        [⟨1, 1, [("speed", some 3)]⟩, ⟨1, 1, [("speed", some 5)]⟩,
         ⟨1, 2, [("speed", none)]⟩]⟩ = .ok rows ∧
      (∀ p : ℕ × ℤ, (∃ r ∈ rows, (r.vehicle_id, r.lap) = p) ↔
        ∃ x ∈ ([⟨1, 1, [("speed", some 3)]⟩, ⟨1, 1, [("speed", some 5)]⟩,
          ⟨1, 2, [("speed", none)]⟩] : List WRow), wkey x = p) ∧
      (∀ r1 ∈ rows, ∀ r2 ∈ rows,
        r1.vehicle_id = r2.vehicle_id → r1.lap = r2.lap → r1 = r2) ∧
      (∀ r ∈ rows, r.samples_per_lap =
        (([⟨1, 1, [("speed", some 3)]⟩, ⟨1, 1, [("speed", some 5)]⟩,
          ⟨1, 2, [("speed", none)]⟩] : List WRow).filter
            (fun x => wkey x = (r.vehicle_id, r.lap))).length) :=
  aggregatePerLap_coverage _ (by decide) (by decide)
    ⟨("speed", ["mean", "max"]), by decide, by decide⟩

/-! ### C4: Risk Engine boundedness -/

lemma normalize_nonneg (v : Option ℚ) (mn mx : ℚ) : 0 ≤ normalize v mn mx := by
  unfold normalize
  cases v with
  | none => exact le_refl 0
  | some x =>
    dsimp only
    by_cases h : mx ≤ mn
    · rw [if_pos h]
    · rw [if_neg h]
      exact le_max_left 0 _

lemma normalize_le_one (v : Option ℚ) (mn mx : ℚ) : normalize v mn mx ≤ 1 := by
  unfold normalize
  cases v with
  | none => exact zero_le_one
  | some x =>
    dsimp only
    by_cases h : mx ≤ mn
    · rw [if_pos h]; exact zero_le_one
    · rw [if_neg h]
      exact max_le zero_le_one (min_le_left 1 _)

lemma componentScore_bounds (row : KRow) (stats : List (String × (ℚ × ℚ)))
    (spec : CompSpec) (hw : ∀ fw ∈ spec.feature_weights, 0 ≤ fw.2) :
    0 ≤ componentScore row stats spec ∧ componentScore row stats spec ≤ 1 := by
  unfold componentScore
  by_cases h : totalWeight spec = 0
  · rw [if_pos h]
    exact ⟨le_refl 0, zero_le_one⟩
  · rw [if_neg h]
    have hws0 : 0 ≤ weightedSum row stats spec := by
      unfold weightedSum
      apply List.sum_nonneg
      intro x hx
      obtain ⟨fw, hfw, rfl⟩ := List.mem_map.mp hx
      exact mul_nonneg (hw fw hfw) (normalize_nonneg _ _ _)
    have htw0 : 0 ≤ totalWeight spec := by
      unfold totalWeight
      apply List.sum_nonneg
      intro x hx
      obtain ⟨fw, hfw, rfl⟩ := List.mem_map.mp hx
      exact hw fw hfw
    have htwpos : 0 < totalWeight spec := lt_of_le_of_ne htw0 (Ne.symm h)
    have hle : weightedSum row stats spec ≤ totalWeight spec := by
      unfold weightedSum totalWeight
      apply List.sum_le_sum
      intro fw hfw
      exact mul_le_of_le_one_right (hw fw hfw) (normalize_le_one _ _ _)
    exact ⟨div_nonneg hws0 htw0, (div_le_one htwpos).mpr hle⟩

/-- All state values of the `smoothed_scores` dict lie in `[0, 1]`. -/
def InvS (sm : SMap) : Prop := ∀ e ∈ sm, 0 ≤ e.2 ∧ e.2 ≤ 1

lemma lookupSM_inv {sm : SMap} {k : ℕ × String} {x : ℚ}
    (h : InvS sm) (hx : lookupSM sm k = some x) : 0 ≤ x ∧ x ≤ 1 := by
  induction sm with
  | nil => simp [lookupSM] at hx
  | cons e rest ih =>
    obtain ⟨k0, x0⟩ := e
    unfold lookupSM at hx
    by_cases hk : k0 = k
    · rw [if_pos hk] at hx
      exact Option.some.inj hx ▸ h (k0, x0) (List.mem_cons_self _ _)
    · rw [if_neg hk] at hx
      exact ih (fun e he => h e (List.mem_cons_of_mem _ he)) hx

lemma updateSM_inv {sm : SMap} {k : ℕ × String} {v : ℚ}
    (h : InvS sm) (hv : 0 ≤ v ∧ v ≤ 1) : InvS (updateSM sm k v) := by
  induction sm with
  | nil =>
    intro e he
    unfold updateSM at he
    rcases List.mem_singleton.mp he with rfl
    exact hv
  | cons e0 rest ih =>
    obtain ⟨k0, x0⟩ := e0
    intro e he
    unfold updateSM at he
    by_cases hk : k0 = k
    · rw [if_pos hk] at he
      rcases List.mem_cons.mp he with rfl | he'
      · exact hv
      · exact h _ (List.mem_cons_of_mem _ he')
    · rw [if_neg hk] at he
      rcases List.mem_cons.mp he with rfl | he'
      · exact h _ (List.mem_cons_self _ _)
      · exact ih (fun e' he' => h e' (List.mem_cons_of_mem _ he')) e he'

lemma stepSpec_bounds {s wr : ℚ} {stats : List (String × (ℚ × ℚ))} {row : KRow}
    {rel : ℤ} {sm : SMap} {spec : CompSpec}
    (hs0 : 0 ≤ s) (hs1 : s ≤ 1) (hwr : 0 ≤ wr) (hrel : 1 ≤ rel)
    (hinv : InvS sm) (hw : ∀ fw ∈ spec.feature_weights, 0 ≤ fw.2) :
    (0 ≤ (stepSpec s wr stats row rel sm spec).2.instant_score ∧
     (stepSpec s wr stats row rel sm spec).2.instant_score ≤ 1 ∧
     0 ≤ (stepSpec s wr stats row rel sm spec).2.karma_score ∧
     (stepSpec s wr stats row rel sm spec).2.karma_score ≤ 1) ∧
    InvS (stepSpec s wr stats row rel sm spec).1 := by
  obtain ⟨hi0, hi1⟩ := componentScore_bounds row stats spec hw
  have hprev : 0 ≤ (lookupSM sm (row.vehicle_id, spec.name)).getD
      (componentScore row stats spec) ∧
      (lookupSM sm (row.vehicle_id, spec.name)).getD
        (componentScore row stats spec) ≤ 1 := by
    cases hl : lookupSM sm (row.vehicle_id, spec.name) with
    | none => exact ⟨hi0, hi1⟩
    | some x => exact lookupSM_inv hinv hl
  obtain ⟨hp0, hp1⟩ := hprev
  have hsm0 : 0 ≤ s * ((lookupSM sm (row.vehicle_id, spec.name)).getD
      (componentScore row stats spec)) + (1 - s) * componentScore row stats spec :=
    add_nonneg (mul_nonneg hs0 hp0) (mul_nonneg (by linarith) hi0)
  have hsm1 : s * ((lookupSM sm (row.vehicle_id, spec.name)).getD
      (componentScore row stats spec)) + (1 - s) * componentScore row stats spec ≤ 1 := by
    have h1 : s * ((lookupSM sm (row.vehicle_id, spec.name)).getD
        (componentScore row stats spec)) ≤ s := mul_le_of_le_one_right hs0 hp1
    have h2 : (1 - s) * componentScore row stats spec ≤ 1 - s :=
      mul_le_of_le_one_right (by linarith) hi1
    linarith
  have hrelq : (1 : ℚ) ≤ (rel : ℤ) := by exact_mod_cast hrel
  have hwear0 : 0 ≤ min (1/2 : ℚ) (wr * (rel : ℚ)) :=
    le_min (by norm_num) (mul_nonneg hwr (by linarith))
  have hwear1 : min (1/2 : ℚ) (wr * (rel : ℚ)) ≤ 1/2 := min_le_left _ _
  have hmult0 : (1 : ℚ) ≤ 1 + componentScore row stats spec * (1/2) := by nlinarith
  have hmult1 : 1 + componentScore row stats spec * (1/2 : ℚ) ≤ 3/2 := by nlinarith
  have htw0 : 0 ≤ min (1/2 : ℚ) (wr * (rel : ℚ)) *
      (1 + componentScore row stats spec * (1/2)) :=
    mul_nonneg hwear0 (by linarith)
  have hkarma : 0 ≤ min 1 (s * ((lookupSM sm (row.vehicle_id, spec.name)).getD
        (componentScore row stats spec)) + (1 - s) * componentScore row stats spec +
        min (1/2 : ℚ) (wr * (rel : ℚ)) * (1 + componentScore row stats spec * (1/2))) ∧
      min 1 (s * ((lookupSM sm (row.vehicle_id, spec.name)).getD
        (componentScore row stats spec)) + (1 - s) * componentScore row stats spec +
        min (1/2 : ℚ) (wr * (rel : ℚ)) * (1 + componentScore row stats spec * (1/2))) ≤ 1 :=
    ⟨le_min zero_le_one (by linarith), min_le_left _ _⟩
  refine ⟨⟨hi0, hi1, ?_, ?_⟩, ?_⟩
  · exact hkarma.1
  · exact hkarma.2
  · exact updateSM_inv hinv ⟨hkarma.1, hkarma.2⟩

lemma runSpecs_bounds {s wr : ℚ} {stats : List (String × (ℚ × ℚ))} {row : KRow}
    {rel : ℤ} (hs0 : 0 ≤ s) (hs1 : s ≤ 1) (hwr : 0 ≤ wr) (hrel : 1 ≤ rel) :
    ∀ (specs : List CompSpec) (sm : SMap), InvS sm →
      (∀ spec ∈ specs, ∀ fw ∈ spec.feature_weights, 0 ≤ fw.2) →
      (∀ rec ∈ (runSpecs s wr stats row rel sm specs).2,
        0 ≤ rec.instant_score ∧ rec.instant_score ≤ 1 ∧
        0 ≤ rec.karma_score ∧ rec.karma_score ≤ 1) ∧
      InvS (runSpecs s wr stats row rel sm specs).1 := by
  intro specs
  induction specs with
  | nil =>
    intro sm hinv _
    exact ⟨by intro rec h; simp [runSpecs] at h, hinv⟩
  | cons spec rest ih =>
    intro sm hinv hw
    have hstep := @stepSpec_bounds s wr stats row rel sm spec hs0 hs1 hwr hrel
      hinv (hw spec (List.mem_cons_self _ _))
    have hrest := ih (stepSpec s wr stats row rel sm spec).1 hstep.2
      (fun sp hsp => hw sp (List.mem_cons_of_mem _ hsp))
    constructor
    · intro rec hrec
      rcases List.mem_cons.mp hrec with rfl | hrec'
      · exact ⟨hstep.1.1, hstep.1.2.1, hstep.1.2.2.1, hstep.1.2.2.2⟩
      · exact hrest.1 rec hrec'
    · exact hrest.2

lemma COMPONENT_SPECS_weights_nonneg :
    ∀ spec ∈ COMPONENT_SPECS, ∀ fw ∈ spec.feature_weights, 0 ≤ fw.2 := by
  decide

/-- Lower bounds recorded in `vehicle_start_laps` hold for all remaining
rows of the same vehicle. -/
def InvV (vm : VMap) (rows : List KRow) : Prop :=
  ∀ e ∈ vm, ∀ row ∈ rows, row.vehicle_id = e.1 → e.2 ≤ row.lap

lemma lookupVM_mem {vm : VMap} {k : ℕ} {x : ℤ} (h : lookupVM vm k = some x) :
    (k, x) ∈ vm := by
  induction vm with
  | nil => simp [lookupVM] at h
  | cons e rest ih =>
    obtain ⟨k0, x0⟩ := e
    unfold lookupVM at h
    by_cases hk : k0 = k
    · rw [if_pos hk] at h
      rw [hk, Option.some.inj h]
      exact List.mem_cons_self _ _
    · rw [if_neg hk] at h
      exact List.mem_cons_of_mem _ (ih h)

lemma runRows_bounds {s wr : ℚ} {stats : List (String × (ℚ × ℚ))}
    (hs0 : 0 ≤ s) (hs1 : s ≤ 1) (hwr : 0 ≤ wr) :
    ∀ (rows : List KRow) (st : SMap × VMap), List.Sorted rowLE rows →
      InvS st.1 → InvV st.2 rows →
      ∀ rec ∈ runRows s wr stats st rows,
        0 ≤ rec.instant_score ∧ rec.instant_score ≤ 1 ∧
        0 ≤ rec.karma_score ∧ rec.karma_score ≤ 1 := by
  intro rows
  induction rows with
  | nil => intro st _ _ _ rec hrec; simp [runRows] at hrec
  | cons row rest ih =>
    intro st hsorted hinvS hinvV rec hrec
    obtain ⟨hhead, htail⟩ := List.pairwise_cons.mp hsorted
    have hrel : 1 ≤ row.lap -
        ((lookupVM (insertIfAbsentVM st.2 row.vehicle_id row.lap)
          row.vehicle_id).getD row.lap) + 1 := by
      unfold insertIfAbsentVM
      cases hl : lookupVM st.2 row.vehicle_id with
      | some l0 =>
        dsimp only
        rw [hl]
        dsimp only [Option.getD]
        have : l0 ≤ row.lap :=
          hinvV (row.vehicle_id, l0) (lookupVM_mem hl) row
            (List.mem_cons_self _ _) rfl
        omega
      | none =>
        dsimp only
        rw [lookupVM]
        rw [if_pos rfl]
        dsimp only [Option.getD]
        omega
    have hspecs := @runSpecs_bounds s wr stats row
      (row.lap - ((lookupVM (insertIfAbsentVM st.2 row.vehicle_id row.lap)
        row.vehicle_id).getD row.lap) + 1)
      hs0 hs1 hwr hrel COMPONENT_SPECS st.1 hinvS
      COMPONENT_SPECS_weights_nonneg
    rw [runRows] at hrec
    rcases List.mem_append.mp hrec with hrec1 | hrec2
    · exact hspecs.1 rec hrec1
    · refine ih ((stepRow s wr stats st row).1.1, (stepRow s wr stats st row).1.2)
        htail hspecs.2 ?_ rec hrec2
      intro e he r hr hv
      unfold stepRow insertIfAbsentVM at he
      dsimp only at he
      cases hl : lookupVM st.2 row.vehicle_id with
      | some l0 =>
        rw [hl] at he
        exact hinvV e he r (List.mem_cons_of_mem _ hr) hv
      | none =>
        rw [hl] at he
        dsimp only at he
        rcases List.mem_cons.mp he with rfl | he'
        · dsimp only at hv ⊢
          have := hhead r hr
          unfold rowLE at this
          rcases this with h1 | ⟨_, h2⟩
          · exact absurd hv (by omega)
          · exact h2
        · exact hinvV e he' r (List.mem_cons_of_mem _ hr) hv

/-- **C4.** For smoothing and wear-rate parameters in their documented
domains (`0 ≤ smoothing ≤ 1`, `0 ≤ wear_rate`), every record the Risk
Engine outputs satisfies `0 ≤ instant_score ≤ 1` and
`0 ≤ karma_score ≤ 1`, for every input table. -/
theorem computeStream_bounded (df : KDF) (s wr : ℚ) (out : KOut)
    (hs0 : 0 ≤ s) (hs1 : s ≤ 1) (hwr : 0 ≤ wr)
    (hok : computeStream df s wr = .ok out) :
    ∀ rec ∈ out.records,
      0 ≤ rec.instant_score ∧ rec.instant_score ≤ 1 ∧
      0 ≤ rec.karma_score ∧ rec.karma_score ≤ 1 := by
  unfold computeStream at hok
  by_cases hemp : df.rows = []
  · rw [if_pos hemp] at hok
    rw [← Option.some.inj (congrArg Except.toOption hok)]
    intro rec hrec
    simp at hrec
  · rw [if_neg hemp] at hok
    by_cases hmiss : missingFeatures df = []
    · rw [if_pos hmiss] at hok
      rw [← Option.some.inj (congrArg Except.toOption hok)]
      intro rec hrec
      dsimp only at hrec
      exact runRows_bounds hs0 hs1 hwr (List.insertionSort rowLE df.rows)
        ([], []) (List.sorted_insertionSort rowLE df.rows)
        (by intro e he; simp at he) (by intro e he; simp at he) rec hrec
    · rw [if_neg hmiss] at hok
      exact absurd hok (by simp)

/-- **C4, witness.** The C1 table at the default parameters: the engine's
lap-2 record `(instant, karma) = (2/5, 83/500)` is in the output and both
scores are bounded by the theorem. -/
theorem computeStream_bounded_witness :
    0 ≤ (KRec.mk 1 2 "engine" (2/5) (83/500)).instant_score ∧
    (KRec.mk 1 2 "engine" (2/5) (83/500)).instant_score ≤ 1 ∧
    0 ≤ (KRec.mk 1 2 "engine" (2/5) (83/500)).karma_score ∧
    (KRec.mk 1 2 "engine" (2/5) (83/500)).karma_score ≤ 1 :=
  computeStream_bounded
    ⟨requiredCols,
      [⟨1, 1, [("speed_mean", some 0), ("nmot_mean", some 0)]⟩,
       ⟨1, 2, [("speed_mean", some 100), ("nmot_mean", none)]⟩]⟩
    (3/5) (1/500)
    (KOut.mk karmaCols
      (runRows (3/5) (1/500)
        (columnStats ⟨requiredCols,
          [⟨1, 1, [("speed_mean", some 0), ("nmot_mean", some 0)]⟩,
           ⟨1, 2, [("speed_mean", some 100), ("nmot_mean", none)]⟩]⟩ requiredCols)
        ([], [])
        (List.insertionSort rowLE
          [⟨1, 1, [("speed_mean", some 0), ("nmot_mean", some 0)]⟩,
           ⟨1, 2, [("speed_mean", some 100), ("nmot_mean", none)]⟩])))
    (by norm_num) (by norm_num) (by norm_num) (by decide)
    (KRec.mk 1 2 "engine" (2/5) (83/500)) (by decide)

/-! ### C5: monotone karma floor under zero instant stress -/

/-- The output records of one `(vehicle, component)` stream, in output
order. -/
def filterKey (v : ℕ) (name : String) (recs : List KRec) : List KRec :=
  recs.filter (fun rec => rec.vehicle_id = v ∧ rec.component = name)

/-- The karma recurrence of one engine step (`stepSpec`'s arithmetic):
smoothing against the previous karma (seeded with the instant score), plus
capped stress-amplified wear, capped at 1. -/
def karmaNext (s wr : ℚ) (prevO : Option ℚ) (instant : ℚ) (rel : ℤ) : ℚ :=
  min 1 (s * prevO.getD instant + (1 - s) * instant +
    min (1/2 : ℚ) (wr * (rel : ℚ)) * (1 + instant * (1/2)))

/-- The per-`(vehicle, component)` projection of the engine's row loop:
scan the vehicle's rows carrying the previous karma and the vehicle's
first-seen lap. -/
def scanKey (s wr : ℚ) (stats : List (String × (ℚ × ℚ))) (spec : CompSpec) :
    Option ℚ → Option ℤ → List KRow → List KRec
  | _, _, [] => []
  | prevO, startO, row :: rest =>
    let start := startO.getD row.lap
    let instant := componentScore row stats spec
    let karma := karmaNext s wr prevO instant (row.lap - start + 1)
    ⟨row.vehicle_id, row.lap, spec.name, instant, karma⟩ ::
      scanKey s wr stats spec (some karma) (some start) rest

lemma lookupSM_updateSM_self (sm : SMap) (k : ℕ × String) (x : ℚ) :
    lookupSM (updateSM sm k x) k = some x := by
  induction sm with
  | nil => simp [updateSM, lookupSM]
  | cons e rest ih =>
    obtain ⟨k0, x0⟩ := e
    unfold updateSM
    by_cases hk : k0 = k
    · rw [if_pos hk]
      unfold lookupSM
      rw [if_pos rfl]
    · rw [if_neg hk]
      unfold lookupSM
      rw [if_neg hk]
      exact ih

lemma lookupSM_updateSM_ne (sm : SMap) {k k' : ℕ × String} (h : k ≠ k') (x : ℚ) :
    lookupSM (updateSM sm k x) k' = lookupSM sm k' := by
  induction sm with
  | nil => simp [updateSM, lookupSM, h]
  | cons e rest ih =>
    obtain ⟨k0, x0⟩ := e
    unfold updateSM
    by_cases hk : k0 = k
    · rw [if_pos hk]
      unfold lookupSM
      rw [if_neg h, if_neg (hk ▸ h)]
    · rw [if_neg hk]
      unfold lookupSM
      by_cases hk' : k0 = k'
      · rw [if_pos hk', if_pos hk']
      · rw [if_neg hk', if_neg hk']
        exact ih

/-- Specs whose name differs from `nm` neither emit a record of the
`(v, nm)` stream nor disturb its state entry. -/
lemma runSpecs_no_name {s wr : ℚ} {stats : List (String × (ℚ × ℚ))} {row : KRow}
    {rel : ℤ} {v : ℕ} {nm : String} :
    ∀ (specs : List CompSpec) (sm : SMap), (∀ sp ∈ specs, sp.name ≠ nm) →
      filterKey v nm (runSpecs s wr stats row rel sm specs).2 = [] ∧
      lookupSM (runSpecs s wr stats row rel sm specs).1 (v, nm)
        = lookupSM sm (v, nm) := by
  intro specs
  induction specs with
  | nil => intro sm _; exact ⟨rfl, rfl⟩
  | cons sp rest ih =>
    intro sm hname
    have hsp : sp.name ≠ nm := hname sp (List.mem_cons_self _ _)
    have hrest := ih (stepSpec s wr stats row rel sm sp).1
      (fun q hq => hname q (List.mem_cons_of_mem _ hq))
    constructor
    · show filterKey v nm ((stepSpec s wr stats row rel sm sp).2 ::
        (runSpecs s wr stats row rel (stepSpec s wr stats row rel sm sp).1 rest).2) = []
      unfold filterKey
      rw [List.filter_cons]
      have : ¬ ((stepSpec s wr stats row rel sm sp).2.vehicle_id = v ∧
          (stepSpec s wr stats row rel sm sp).2.component = nm) := by
        intro hcon
        exact hsp hcon.2
      simp only [this, decide_eq_false_iff_not.mpr this, Bool.false_eq_true, if_false]
      exact hrest.1
    · show lookupSM (runSpecs s wr stats row rel
        (stepSpec s wr stats row rel sm sp).1 rest).1 (v, nm) = lookupSM sm (v, nm)
      rw [hrest.2]
      show lookupSM (updateSM sm (row.vehicle_id, sp.name) _) (v, nm)
        = lookupSM sm (v, nm)
      exact lookupSM_updateSM_ne sm (by simp [hsp]) _

/-- Rows of another vehicle neither emit a record of the `(v, nm)` stream
nor disturb its state entry. -/
lemma runSpecs_other_vehicle {s wr : ℚ} {stats : List (String × (ℚ × ℚ))}
    {row : KRow} {rel : ℤ} {v : ℕ} {nm : String} (hv : row.vehicle_id ≠ v) :
    ∀ (specs : List CompSpec) (sm : SMap),
      filterKey v nm (runSpecs s wr stats row rel sm specs).2 = [] ∧
      lookupSM (runSpecs s wr stats row rel sm specs).1 (v, nm)
        = lookupSM sm (v, nm) := by
  intro specs
  induction specs with
  | nil => intro sm; exact ⟨rfl, rfl⟩
  | cons sp rest ih =>
    intro sm
    have hrest := ih (stepSpec s wr stats row rel sm sp).1
    constructor
    · show filterKey v nm ((stepSpec s wr stats row rel sm sp).2 ::
        (runSpecs s wr stats row rel (stepSpec s wr stats row rel sm sp).1 rest).2) = []
      unfold filterKey
      rw [List.filter_cons]
      have : ¬ ((stepSpec s wr stats row rel sm sp).2.vehicle_id = v ∧
          (stepSpec s wr stats row rel sm sp).2.component = nm) := by
        intro hcon
        exact hv hcon.1
      simp only [this, decide_eq_false_iff_not.mpr this, Bool.false_eq_true, if_false]
      exact hrest.1
    · show lookupSM (runSpecs s wr stats row rel
        (stepSpec s wr stats row rel sm sp).1 rest).1 (v, nm) = lookupSM sm (v, nm)
      rw [hrest.2]
      show lookupSM (updateSM sm (row.vehicle_id, sp.name) _) (v, nm)
        = lookupSM sm (v, nm)
      exact lookupSM_updateSM_ne sm (by simp [hv]) _

/-- Through one row of the stream's own vehicle, the inner component loop
emits exactly one record of the `(v, spec.name)` stream — computed by the
karma recurrence from the stream's state entry — and stores its karma. -/
lemma runSpecs_proj {s wr : ℚ} {stats : List (String × (ℚ × ℚ))} {row : KRow}
    {rel : ℤ} {v : ℕ} {spec : CompSpec} (hv : row.vehicle_id = v) :
    ∀ (specs : List CompSpec) (sm : SMap),
      (specs.map (fun sp => sp.name)).Nodup → spec ∈ specs →
      filterKey v spec.name (runSpecs s wr stats row rel sm specs).2
        = [⟨row.vehicle_id, row.lap, spec.name, componentScore row stats spec,
            karmaNext s wr (lookupSM sm (v, spec.name))
              (componentScore row stats spec) rel⟩] ∧
      lookupSM (runSpecs s wr stats row rel sm specs).1 (v, spec.name)
        = some (karmaNext s wr (lookupSM sm (v, spec.name))
            (componentScore row stats spec) rel) := by
  subst hv
  intro specs
  induction specs with
  | nil => intro sm _ hmem; simp at hmem
  | cons sp rest ih =>
    intro sm hnd hmem
    have hndrest : (rest.map (fun q => q.name)).Nodup :=
      (List.nodup_cons.mp (by simpa using hnd)).2
    have hheadname : sp.name ∉ rest.map (fun q => q.name) :=
      (List.nodup_cons.mp (by simpa using hnd)).1
    rcases List.mem_cons.mp hmem with rfl | hmem'
    · -- the head spec is the tracked one
      have hnonerest : ∀ q ∈ rest, q.name ≠ spec.name := by
        intro q hq hcon
        exact hheadname (List.mem_map.mpr ⟨q, hq, hcon⟩)
      have hrest := @runSpecs_no_name s wr stats row rel row.vehicle_id spec.name
        rest (stepSpec s wr stats row rel sm spec).1 hnonerest
      constructor
      · show filterKey row.vehicle_id spec.name
          ((stepSpec s wr stats row rel sm spec).2 ::
            (runSpecs s wr stats row rel
              (stepSpec s wr stats row rel sm spec).1 rest).2) = _
        unfold filterKey
        rw [List.filter_cons]
        have hkeepb : (decide ((stepSpec s wr stats row rel sm spec).2.vehicle_id
            = row.vehicle_id ∧
            (stepSpec s wr stats row rel sm spec).2.component = spec.name)) = true :=
          decide_eq_true ⟨rfl, rfl⟩
        rw [if_pos hkeepb]
        rw [show List.filter (fun rec => decide (rec.vehicle_id = row.vehicle_id ∧
            rec.component = spec.name))
            (runSpecs s wr stats row rel
              (stepSpec s wr stats row rel sm spec).1 rest).2
          = filterKey row.vehicle_id spec.name
            (runSpecs s wr stats row rel
              (stepSpec s wr stats row rel sm spec).1 rest).2 from rfl]
        rw [hrest.1]
        rfl
      · show lookupSM (runSpecs s wr stats row rel
            (stepSpec s wr stats row rel sm spec).1 rest).1
            (row.vehicle_id, spec.name) = _
        rw [hrest.2]
        exact lookupSM_updateSM_self sm (row.vehicle_id, spec.name) _
    · -- the head spec is a different component
      have hspname : sp.name ≠ spec.name := by
        intro hcon
        exact hheadname (List.mem_map.mpr ⟨spec, hmem', hcon.symm⟩)
      have hstate : lookupSM (stepSpec s wr stats row rel sm sp).1
          (row.vehicle_id, spec.name) = lookupSM sm (row.vehicle_id, spec.name) := by
        show lookupSM (updateSM sm (row.vehicle_id, sp.name) _)
          (row.vehicle_id, spec.name) = lookupSM sm (row.vehicle_id, spec.name)
        exact lookupSM_updateSM_ne sm (by simp [hspname]) _
      have hrest := ih (stepSpec s wr stats row rel sm sp).1 hndrest hmem'
      constructor
      · show filterKey row.vehicle_id spec.name
          ((stepSpec s wr stats row rel sm sp).2 ::
            (runSpecs s wr stats row rel
              (stepSpec s wr stats row rel sm sp).1 rest).2) = _
        unfold filterKey
        rw [List.filter_cons]
        have hdropb : (decide ((stepSpec s wr stats row rel sm sp).2.vehicle_id
            = row.vehicle_id ∧
            (stepSpec s wr stats row rel sm sp).2.component = spec.name)) = false := by
          apply decide_eq_false
          intro hcon
          exact hspname hcon.2
        rw [hdropb]
        rw [show List.filter (fun rec => decide (rec.vehicle_id = row.vehicle_id ∧
            rec.component = spec.name))
            (runSpecs s wr stats row rel
              (stepSpec s wr stats row rel sm sp).1 rest).2
          = filterKey row.vehicle_id spec.name
            (runSpecs s wr stats row rel
              (stepSpec s wr stats row rel sm sp).1 rest).2 from rfl]
        rw [hrest.1, hstate]
        simp
      · show lookupSM (runSpecs s wr stats row rel
            (stepSpec s wr stats row rel sm sp).1 rest).1
            (row.vehicle_id, spec.name) = _
        rw [hrest.2, hstate]

/-- The `(v, component)` stream of the engine's row loop equals the karma
scan over the vehicle's own rows. -/
lemma runRows_proj {s wr : ℚ} {stats : List (String × (ℚ × ℚ))} {v : ℕ}
    {spec : CompSpec} (hspec : spec ∈ COMPONENT_SPECS) :
    ∀ (rows : List KRow) (st : SMap × VMap),
      filterKey v spec.name (runRows s wr stats st rows)
        = scanKey s wr stats spec (lookupSM st.1 (v, spec.name))
            (lookupVM st.2 v) (rows.filter (fun r => r.vehicle_id = v)) := by
  have hnd : (COMPONENT_SPECS.map (fun sp => sp.name)).Nodup := by decide
  intro rows
  induction rows with
  | nil => intro st; rfl
  | cons row rest ih =>
    intro st
    show filterKey v spec.name
        ((runSpecs s wr stats row _ st.1 COMPONENT_SPECS).2 ++
          runRows s wr stats ((runSpecs s wr stats row _ st.1 COMPONENT_SPECS).1,
            insertIfAbsentVM st.2 row.vehicle_id row.lap) rest) = _
    unfold filterKey
    rw [List.filter_append]
    by_cases hv : row.vehicle_id = v
    · -- the row belongs to the tracked vehicle
      have hvm : lookupVM (insertIfAbsentVM st.2 row.vehicle_id row.lap)
          row.vehicle_id = some ((lookupVM st.2 row.vehicle_id).getD row.lap) := by
        cases hl : lookupVM st.2 row.vehicle_id with
        | some l0 => simp [insertIfAbsentVM, hl]
        | none => simp [insertIfAbsentVM, hl, lookupVM]
      have hproj := @runSpecs_proj s wr stats row
        (row.lap - ((lookupVM (insertIfAbsentVM st.2 row.vehicle_id row.lap)
          row.vehicle_id).getD row.lap) + 1) v spec hv COMPONENT_SPECS st.1 hnd hspec
      have hfilrow : (row :: rest).filter (fun r => decide (r.vehicle_id = v))
          = row :: rest.filter (fun r => decide (r.vehicle_id = v)) := by
        rw [List.filter_cons]
        simp [hv]
      rw [hv] at hvm hproj
      rw [hvm] at hproj
      simp only [Option.getD_some] at hproj
      rw [hv, hvm]
      simp only [Option.getD_some]
      rw [show (List.filter (fun rec => decide (rec.vehicle_id = v ∧
          rec.component = spec.name))
          (runSpecs s wr stats row ((row.lap - (lookupVM st.2 v).getD row.lap) + 1)
            st.1 COMPONENT_SPECS).2)
        = filterKey v spec.name
          (runSpecs s wr stats row ((row.lap - (lookupVM st.2 v).getD row.lap) + 1)
            st.1 COMPONENT_SPECS).2 from rfl]
      rw [hproj.1]
      rw [show (List.filter (fun rec => decide (rec.vehicle_id = v ∧
          rec.component = spec.name))
          (runRows s wr stats
            ((runSpecs s wr stats row ((row.lap - (lookupVM st.2 v).getD row.lap) + 1)
              st.1 COMPONENT_SPECS).1, insertIfAbsentVM st.2 v row.lap) rest))
        = filterKey v spec.name
          (runRows s wr stats
            ((runSpecs s wr stats row ((row.lap - (lookupVM st.2 v).getD row.lap) + 1)
              st.1 COMPONENT_SPECS).1, insertIfAbsentVM st.2 v row.lap) rest)
        from rfl]
      rw [ih ((runSpecs s wr stats row ((row.lap - (lookupVM st.2 v).getD row.lap) + 1)
        st.1 COMPONENT_SPECS).1, insertIfAbsentVM st.2 v row.lap)]
      show _ = scanKey s wr stats spec (lookupSM st.1 (v, spec.name))
        (lookupVM st.2 v) ((row :: rest).filter (fun r => r.vehicle_id = v))
      rw [hfilrow]
      rw [scanKey]
      simp only [List.singleton_append, hproj.2, hvm, hv, Option.getD_some]
    · -- a row of another vehicle
      have hother := @runSpecs_other_vehicle s wr stats row
        (row.lap - ((lookupVM (insertIfAbsentVM st.2 row.vehicle_id row.lap)
          row.vehicle_id).getD row.lap) + 1) v spec.name hv COMPONENT_SPECS st.1
      have hvm : lookupVM (insertIfAbsentVM st.2 row.vehicle_id row.lap) v
          = lookupVM st.2 v := by
        cases hl : lookupVM st.2 row.vehicle_id with
        | some l0 => simp [insertIfAbsentVM, hl]
        | none => simp [insertIfAbsentVM, hl, lookupVM, hv]
      have hfilrow : (row :: rest).filter (fun r => decide (r.vehicle_id = v))
          = rest.filter (fun r => decide (r.vehicle_id = v)) := by
        rw [List.filter_cons]
        simp [hv]
      rw [show (List.filter (fun rec => decide (rec.vehicle_id = v ∧
          rec.component = spec.name))
          (runSpecs s wr stats row _ st.1 COMPONENT_SPECS).2)
        = filterKey v spec.name
          (runSpecs s wr stats row _ st.1 COMPONENT_SPECS).2 from rfl]
      rw [hother.1]
      rw [show (List.filter (fun rec => decide (rec.vehicle_id = v ∧
          rec.component = spec.name))
          (runRows s wr stats ((runSpecs s wr stats row _ st.1 COMPONENT_SPECS).1,
            insertIfAbsentVM st.2 row.vehicle_id row.lap) rest))
        = filterKey v spec.name
          (runRows s wr stats ((runSpecs s wr stats row _ st.1 COMPONENT_SPECS).1,
            insertIfAbsentVM st.2 row.vehicle_id row.lap) rest) from rfl]
      rw [ih ((runSpecs s wr stats row _ st.1 COMPONENT_SPECS).1,
        insertIfAbsentVM st.2 row.vehicle_id row.lap)]
      show _ = scanKey s wr stats spec (lookupSM st.1 (v, spec.name))
        (lookupVM st.2 v) ((row :: rest).filter (fun r => r.vehicle_id = v))
      rw [hfilrow, hother.2, hvm]
      rfl

/-- Monotone step: under zero instant stress, each karma value is at least
the previous one, and the invariant `(1−s)·karma ≤ wear` is maintained. -/
lemma scanKey_chain {s wr : ℚ} {stats : List (String × (ℚ × ℚ))} {spec : CompSpec}
    (hs0 : 0 ≤ s) (hs1 : s ≤ 1) (hwr : 0 ≤ wr) :
    ∀ (rows : List KRow) (k : ℚ) (st lastLap : ℤ),
      0 ≤ k → k ≤ 1 →
      (1 - s) * k ≤ min (1/2 : ℚ) (wr * ((lastLap - st + 1 : ℤ) : ℚ)) →
      (∀ r ∈ rows, lastLap ≤ r.lap) →
      List.Pairwise (fun a b : KRow => a.lap ≤ b.lap) rows →
      (∀ rec ∈ scanKey s wr stats spec (some k) (some st) rows,
        rec.instant_score = 0) →
      List.Chain (· ≤ ·) k
        ((scanKey s wr stats spec (some k) (some st) rows).map
          (fun rec => rec.karma_score)) := by
  intro rows
  induction rows with
  | nil => intro k st lastLap _ _ _ _ _ _; exact List.Chain.nil
  | cons row rest ih =>
    intro k st lastLap hk0 hk1 hinvar hlast hpw h0
    rw [scanKey] at h0 ⊢
    simp only [Option.getD_some] at h0 ⊢
    have hin : componentScore row stats spec = 0 := h0 _ (List.mem_cons_self _ _)
    rw [hin] at h0 ⊢
    have hkeq : karmaNext s wr (some k) 0 (row.lap - st + 1)
        = min 1 (s * k + min (1/2 : ℚ) (wr * ((row.lap - st + 1 : ℤ) : ℚ))) := by
      unfold karmaNext
      have : s * (some k).getD 0 + (1 - s) * 0 +
          min (1/2 : ℚ) (wr * ((row.lap - st + 1 : ℤ) : ℚ)) * (1 + 0 * (1/2))
          = s * k + min (1/2 : ℚ) (wr * ((row.lap - st + 1 : ℤ) : ℚ)) := by
        simp only [Option.getD_some]
        ring
      rw [this]
    rw [hkeq] at h0 ⊢
    have hcast : ((lastLap - st + 1 : ℤ) : ℚ) ≤ ((row.lap - st + 1 : ℤ) : ℚ) := by
      have := hlast row (List.mem_cons_self _ _)
      exact_mod_cast by omega
    have hww : min (1/2 : ℚ) (wr * ((lastLap - st + 1 : ℤ) : ℚ))
        ≤ min (1/2 : ℚ) (wr * ((row.lap - st + 1 : ℤ) : ℚ)) :=
      min_le_min (le_refl _) (mul_le_mul_of_nonneg_left hcast hwr)
    have hkw : (1 - s) * k ≤ min (1/2 : ℚ) (wr * ((row.lap - st + 1 : ℤ) : ℚ)) :=
      le_trans hinvar hww
    have hwnn : 0 ≤ min (1/2 : ℚ) (wr * ((row.lap - st + 1 : ℤ) : ℚ)) := by
      refine le_min (by norm_num) ?_
      calc (0 : ℚ) ≤ (1 - s) * k := by nlinarith
        _ ≤ min (1/2 : ℚ) (wr * ((row.lap - st + 1 : ℤ) : ℚ)) := hkw
        _ ≤ wr * ((row.lap - st + 1 : ℤ) : ℚ) := min_le_right _ _
    have hchainstep : k ≤ min 1 (s * k +
        min (1/2 : ℚ) (wr * ((row.lap - st + 1 : ℤ) : ℚ))) := by
      refine le_min hk1 ?_
      nlinarith
    have hk'0 : 0 ≤ min 1 (s * k +
        min (1/2 : ℚ) (wr * ((row.lap - st + 1 : ℤ) : ℚ))) :=
      le_trans hk0 hchainstep
    have hk'1 : min 1 (s * k +
        min (1/2 : ℚ) (wr * ((row.lap - st + 1 : ℤ) : ℚ))) ≤ 1 := min_le_left _ _
    have hinv' : (1 - s) * min 1 (s * k +
        min (1/2 : ℚ) (wr * ((row.lap - st + 1 : ℤ) : ℚ)))
        ≤ min (1/2 : ℚ) (wr * ((row.lap - st + 1 : ℤ) : ℚ)) := by
      by_cases hx : s * k + min (1/2 : ℚ) (wr * ((row.lap - st + 1 : ℤ) : ℚ)) ≤ 1
      · rw [min_eq_right hx]
        have hs' : s * ((1 - s) * k) ≤
            s * min (1/2 : ℚ) (wr * ((row.lap - st + 1 : ℤ) : ℚ)) :=
          mul_le_mul_of_nonneg_left hkw hs0
        nlinarith
      · rw [min_eq_left (le_of_not_le (fun hc => hx (le_of_lt (by linarith [lt_of_not_le hx]))))]
        have : s * k ≤ s := mul_le_of_le_one_right hs0 hk1
        have h1x : 1 ≤ s * k + min (1/2 : ℚ) (wr * ((row.lap - st + 1 : ℤ) : ℚ)) :=
          le_of_lt (lt_of_not_le hx)
        linarith
    rw [List.map_cons]
    refine List.Chain.cons hchainstep ?_
    exact ih (min 1 (s * k + min (1/2 : ℚ) (wr * ((row.lap - st + 1 : ℤ) : ℚ))))
      st row.lap hk'0 hk'1 hinv'
      (fun r hr => le_trans (le_refl _)
        ((List.pairwise_cons.mp hpw).1 r hr))
      (List.pairwise_cons.mp hpw).2
      (fun rec hrec => h0 rec (List.mem_cons_of_mem _ hrec))

/-- Zero-stress karma streams are non-decreasing (fresh initial state). -/
lemma scanKey_chain' {s wr : ℚ} {stats : List (String × (ℚ × ℚ))} {spec : CompSpec}
    (hs0 : 0 ≤ s) (hs1 : s ≤ 1) (hwr : 0 ≤ wr) :
    ∀ (rows : List KRow),
      List.Pairwise (fun a b : KRow => a.lap ≤ b.lap) rows →
      (∀ rec ∈ scanKey s wr stats spec none none rows, rec.instant_score = 0) →
      List.Chain' (· ≤ ·)
        ((scanKey s wr stats spec none none rows).map
          (fun rec => rec.karma_score)) := by
  intro rows hpw h0
  cases rows with
  | nil => simp [scanKey]
  | cons row rest =>
    rw [scanKey] at h0 ⊢
    simp only [Option.getD_none] at h0 ⊢
    have hin : componentScore row stats spec = 0 := h0 _ (List.mem_cons_self _ _)
    rw [hin] at h0 ⊢
    have hkeq : karmaNext s wr none 0 (row.lap - row.lap + 1)
        = min 1 (min (1/2 : ℚ) (wr * ((row.lap - row.lap + 1 : ℤ) : ℚ))) := by
      unfold karmaNext
      have : s * (none : Option ℚ).getD 0 + (1 - s) * 0 +
          min (1/2 : ℚ) (wr * ((row.lap - row.lap + 1 : ℤ) : ℚ)) * (1 + 0 * (1/2))
          = min (1/2 : ℚ) (wr * ((row.lap - row.lap + 1 : ℤ) : ℚ)) := by
        simp only [Option.getD_none]
        ring
      rw [this]
    rw [hkeq] at h0 ⊢
    have hw0 : 0 ≤ min (1/2 : ℚ) (wr * ((row.lap - row.lap + 1 : ℤ) : ℚ)) := by
      refine le_min (by norm_num) (mul_nonneg hwr ?_)
      have : ((row.lap - row.lap + 1 : ℤ) : ℚ) = 1 := by
        norm_num
      rw [this]
      norm_num
    have hk0 : 0 ≤ min 1 (min (1/2 : ℚ) (wr * ((row.lap - row.lap + 1 : ℤ) : ℚ))) :=
      le_min (by norm_num) hw0
    have hk1 : min 1 (min (1/2 : ℚ) (wr * ((row.lap - row.lap + 1 : ℤ) : ℚ))) ≤ 1 :=
      min_le_left _ _
    have hinv : (1 - s) * min 1 (min (1/2 : ℚ)
        (wr * ((row.lap - row.lap + 1 : ℤ) : ℚ)))
        ≤ min (1/2 : ℚ) (wr * ((row.lap - row.lap + 1 : ℤ) : ℚ)) := by
      have h1 : min 1 (min (1/2 : ℚ) (wr * ((row.lap - row.lap + 1 : ℤ) : ℚ)))
          ≤ min (1/2 : ℚ) (wr * ((row.lap - row.lap + 1 : ℤ) : ℚ)) := min_le_right _ _
      nlinarith
    rw [List.map_cons]
    show List.Chain (· ≤ ·) _ _
    exact scanKey_chain hs0 hs1 hwr rest _ row.lap row.lap hk0 hk1 hinv
      (fun r hr => (List.pairwise_cons.mp hpw).1 r hr)
      (List.pairwise_cons.mp hpw).2
      (fun rec hrec => h0 rec (List.mem_cons_of_mem _ hrec))

/-- **C5.** For parameters in their documented domains, if a fixed
`(vehicle, component)` stream has instant score 0 on every lap, its
`karma_score` sequence in output (increasing-lap) order is non-decreasing. -/
theorem computeStream_karma_monotone (df : KDF) (s wr : ℚ) (v : ℕ)
    (spec : CompSpec) (out : KOut)
    (hs0 : 0 ≤ s) (hs1 : s ≤ 1) (hwr : 0 ≤ wr)
    (hspec : spec ∈ COMPONENT_SPECS)
    (hok : computeStream df s wr = .ok out)
    (hzero : ∀ rec ∈ filterKey v spec.name out.records, rec.instant_score = 0) :
    List.Chain' (· ≤ ·)
      ((filterKey v spec.name out.records).map (fun rec => rec.karma_score)) := by
  unfold computeStream at hok
  by_cases hemp : df.rows = []
  · rw [if_pos hemp] at hok
    rw [← Except.ok.inj hok]
    simp [filterKey]
  · rw [if_neg hemp] at hok
    by_cases hmiss : missingFeatures df = []
    · rw [if_pos hmiss] at hok
      rw [← Except.ok.inj hok] at hzero ⊢
      dsimp only at hzero ⊢
      rw [@runRows_proj s wr (columnStats df requiredCols) v spec hspec
        (List.insertionSort rowLE df.rows) ([], [])] at hzero ⊢
      have hpw : List.Pairwise (fun a b : KRow => a.lap ≤ b.lap)
          ((List.insertionSort rowLE df.rows).filter
            (fun r => decide (r.vehicle_id = v))) := by
        have hsorted : List.Pairwise rowLE (List.insertionSort rowLE df.rows) :=
          List.sorted_insertionSort rowLE df.rows
        refine List.Pairwise.imp_of_mem ?_ (hsorted.filter _)
        intro a b ha hb hR
        have hav : a.vehicle_id = v := by
          simpa using (List.mem_filter.mp ha).2
        have hbv : b.vehicle_id = v := by
          simpa using (List.mem_filter.mp hb).2
        rcases hR with h1 | ⟨_, h2⟩
        · rw [hav, hbv] at h1
          exact absurd h1 (lt_irrefl v)
        · exact h2
      exact scanKey_chain' hs0 hs1 hwr _ hpw hzero
    · rw [if_neg hmiss] at hok
      exact absurd hok (by simp)

/-- **C5, witness.** Vehicle 1 over laps 1 and 2 with every feature null
(instant stress 0 everywhere): the engine component's karma sequence is
non-decreasing. -/
theorem computeStream_karma_monotone_witness :
    List.Chain' (· ≤ ·)
      ((filterKey 1 "engine"
        (KOut.mk karmaCols
          (runRows (3/5) (1/500)
            (columnStats ⟨requiredCols, [⟨1, 1, []⟩, ⟨1, 2, []⟩]⟩ requiredCols)
            ([], [])
            (List.insertionSort rowLE [⟨1, 1, []⟩, ⟨1, 2, []⟩]))).records).map
        (fun rec => rec.karma_score)) :=
  computeStream_karma_monotone ⟨requiredCols, [⟨1, 1, []⟩, ⟨1, 2, []⟩]⟩
    (3/5) (1/500) 1 ⟨"engine", [("speed_mean", 2/5), ("nmot_mean", 3/5)]⟩ _
    (by norm_num) (by norm_num) (by norm_num) (by decide) (by decide) (by decide)

end Telemetry
